import Mathlib

/-!
Verification of the styling-preserving text-wrapping core of `clap_builder`
(`src/clap_builder/src/builder/styled_str.rs`) and of the custom-completer
wrapper of `clap_complete` (`src/clap_complete/src/dynamic/custom.rs`).

A `StyledStr` stores text interleaved with terminal escape markers.  The
escape-stripping projector (`anstream::adapter::strip_str`, an external
collaborator) decomposes the raw buffer into an ordered partition of visible
runs and style runs; we embed a buffer as that partition (`List Run`), whose
concatenation is the raw byte/char sequence.  The Unicode display-width
function is likewise external and is taken as a parameter `cw : Char → Nat`.

The word separator and the line wrapper live in `clap_builder`'s
`output/textwrap` module, whose source is not part of the sampled tree; those
two components are modelled from the spec (sections 4.4 and 4.5), see
`grabWord`, `grabSpaces` and `wrapText` below.
-/

/-- Rust `char::is_whitespace`: the Unicode `White_Space` property,
given here by its exact (finite) list of code points. -/
def isWs (c : Char) : Bool :=
  let n := c.toNat
  (decide (9 ≤ n) && decide (n ≤ 13)) || decide (n = 32) || decide (n = 0x85) ||
  decide (n = 0xA0) || decide (n = 0x1680) ||
  (decide (0x2000 ≤ n) && decide (n ≤ 0x200A)) ||
  decide (n = 0x2028) || decide (n = 0x2029) || decide (n = 0x202F) ||
  decide (n = 0x205F) || decide (n = 0x3000)

/-- Sum of the external per-character display widths of a char sequence. -/
def widthL (cw : Char → Nat) (l : List Char) : Nat :=
  (l.map cw).sum

/-- Rust `str::trim_end`: remove the trailing whitespace characters. -/
def dropTrailingWs : List Char → List Char
  | [] => []
  | c :: cs =>
    let r := dropTrailingWs cs
    if r = [] ∧ isWs c then [] else c :: r

/-- Modelled from the spec: the word separator splits visible text on the
ASCII space character only.  `grabSpaces` takes the maximal leading run of
ASCII spaces, returning it together with the remainder. -/
def grabSpaces : List Char → List Char × List Char
  | [] => ([], [])
  | c :: cs =>
    if c = ' ' then
      let r := grabSpaces cs
      (c :: r.1, r.2)
    else ([], c :: cs)

/-- Modelled from the spec: `grabWord` takes the maximal leading run of
word characters (everything except the ASCII space separator and the
line feed, which always terminates the current logical line), returning
it together with the remainder. -/
def grabWord : List Char → List Char × List Char
  | [] => ([], [])
  | c :: cs =>
    if c ≠ ' ' ∧ c ≠ '\n' then
      let r := grabWord cs
      (c :: r.1, r.2)
    else ([], c :: cs)

/-- Split a char sequence into its line-feed-delimited segments
(`n` line feeds give `n + 1` segments). -/
def linesOf : List Char → List (List Char)
  | [] => [[]]
  | c :: cs =>
    let r := linesOf cs
    if c = '\n' then [] :: r else (c :: r.headI) :: r.tail

/-- The word sequence of a char sequence: its maximal blocks of characters
that are neither the ASCII space separator nor a line feed; written with
an explicit fuel argument so that it is structurally recursive. -/
def wordsOfGo : Nat → List Char → List (List Char)
  | _, [] => []
  | 0, _ :: _ => []
  | fuel + 1, c :: cs =>
    if c = ' ' ∨ c = '\n' then wordsOfGo fuel cs
    else (grabWord (c :: cs)).1 :: wordsOfGo fuel (grabWord (c :: cs)).2

/-- The word sequence of a char sequence (see `wordsOfGo`): every step
consumes at least one character, so the length is enough fuel. -/
def wordsOf (l : List Char) : List (List Char) :=
  wordsOfGo l.length l

/-- Modelled from the spec: the Line Wrapper (`LineWrapper` of the
`output/textwrap` module, whose source is outside the sampled tree),
written with an explicit fuel argument (one unit per token) so that it is
structurally recursive; `wrapText` below instantiates the fuel.
State is the current line width `lw`; `hard` is the hard width and `cw`
the external per-character width function.  Per spec section 4.5: a word
is preceded by an inserted line break exactly when the line is non-empty
and the word would push its display width beyond `hard` (the separating
spaces already on the line are counted in `lw`); an overlong word on an
empty line is emitted unbroken; an explicit line feed flushes
unconditionally and resets the accounting to zero; space runs can never
cause a break.  Visible characters are emitted verbatim, with inserted
line breaks spliced in between tokens (spec section 4.6); the final
trailing-whitespace trim is performed by the caller.  Returns the
emitted characters and the final line width. -/
def wrapTextGo (hard : Nat) (cw : Char → Nat) : Nat → Nat → List Char → List Char × Nat
  | _, lw, [] => ([], lw)
  | 0, lw, _ :: _ => ([], lw)
  | fuel + 1, lw, c :: cs =>
    if c = '\n' then
      let r := wrapTextGo hard cw fuel 0 cs
      ('\n' :: r.1, r.2)
    else if c = ' ' then
      let g := grabSpaces (c :: cs)
      let r := wrapTextGo hard cw fuel (lw + widthL cw g.1) g.2
      (g.1 ++ r.1, r.2)
    else
      let g := grabWord (c :: cs)
      let ww := widthL cw g.1
      if 0 < lw ∧ hard < lw + ww then
        let r := wrapTextGo hard cw fuel ww g.2
        ('\n' :: (g.1 ++ r.1), r.2)
      else
        let r := wrapTextGo hard cw fuel (lw + ww) g.2
        (g.1 ++ r.1, r.2)

/-- The Line Wrapper over one visible span (see `wrapTextGo`): every
grabbed token consumes at least one character, so the span length is
enough fuel. -/
def wrapText (hard : Nat) (cw : Char → Nat) (lw : Nat) (l : List Char) :
    List Char × Nat :=
  wrapTextGo hard cw l.length lw l

/-- A run of the raw buffer, as produced by the external escape-stripping
projector: either a visible-text run or a style (escape-marker) run. -/
inductive Run where
  | vis : List Char → Run
  | sty : List Char → Run
deriving DecidableEq

/-- The characters of a run. -/
def Run.chars : Run → List Char
  | .vis s => s
  | .sty s => s

/-- Whether a run is a visible-text run. -/
def Run.isVis : Run → Bool
  | .vis _ => true
  | .sty _ => false

/-- The raw buffer: the concatenation of all runs. -/
def rawOf (b : List Run) : List Char :=
  (b.map Run.chars).flatten

/-- The style runs of a buffer, in order. -/
def styleRuns (b : List Run) : List (List Char) :=
  b.filterMap fun r =>
    match r with
    | .sty s => some s
    | .vis _ => none

namespace StyledStr

/-- `StyledStr::iter_text`: the visible spans of the buffer, in order
(the projector's output; escape-marker bytes are never yielded). -/
def iter_text (b : List Run) : List (List Char) :=
  b.filterMap fun r =>
    match r with
    | .vis s => some s
    | .sty _ => none

/-- `StyledStr::display_width`: sum the external display width over the
spans yielded by `iter_text`. -/
def display_width (cw : Char → Nat) (b : List Run) : Nat :=
  ((iter_text b).map (widthL cw)).sum

/-- The `Display` impl ("color-unaware printing"): emit each part
yielded by `iter_text`, in order. -/
def render_plain (b : List Run) : List Char :=
  (iter_text b).flatten

/-- `StyledStr::trim`: `self.0 = self.0.trim().to_owned()` on the raw
buffer — strip leading and trailing whitespace characters. -/
def trim (l : List Char) : List Char :=
  dropTrailingWs (l.dropWhile fun c => isWs c)

/-- `StyledStr::indent`: insert `initial` at position 0 of the raw buffer,
then replace every `'\n'` of the result by `'\n'` followed by `trailing`. -/
def indent (initial trailing l : List Char) : List Char :=
  (initial ++ l).flatMap fun c => if c = '\n' then '\n' :: trailing else [c]

/-- `StyledStr::write_to`: write the raw buffer to the sink; the `ok!`
macro propagates the sink's error unchanged, otherwise return `Ok(())`. -/
def write_to {ε : Type} (sink : List Char → Except ε Unit) (b : List Run) :
    Except ε Unit :=
  match sink (rawOf b) with
  | .error e => .error e
  | .ok _ => .ok ()

end StyledStr

/-- `StyledStr::wrap`, main pass: walk the projector's runs in order,
copying style runs verbatim and wrapping visible runs with the Line
Wrapper state (the current line width) carried across runs, exactly as
the source iterates `iter_text` and pushes the styled gaps in between.
Returns the rewritten runs and the final line width. -/
def wrapRunsCore (hard : Nat) (cw : Char → Nat) : Nat → List Run → List Run × Nat
  | lw, [] => ([], lw)
  | lw, .sty s :: rs =>
    let r := wrapRunsCore hard cw lw rs
    (.sty s :: r.1, r.2)
  | lw, .vis s :: rs =>
    let t := wrapText hard cw lw s
    let r := wrapRunsCore hard cw t.2 rs
    (.vis t.1 :: r.1, r.2)

/-- Trim the trailing whitespace characters of a single run. -/
def trimRunEnd : Run → Run
  | .vis s => .vis (dropTrailingWs s)
  | .sty s => .sty (dropTrailingWs s)

/-- Helper for `trimEndRuns`, acting on the reversed run list: trim runs
from the (now leading) end of the buffer, moving on to the next run only
while runs are erased completely. -/
def trimEndRunsRev : List Run → List Run
  | [] => []
  | r :: rest =>
    let r' := trimRunEnd r
    if r'.chars = [] then r' :: trimEndRunsRev rest else r' :: rest

/-- The final `new.trim_end()` of `StyledStr::wrap`, on the run
decomposition: remove trailing whitespace characters of the raw buffer. -/
def trimEndRuns (rs : List Run) : List Run :=
  (trimEndRunsRev rs.reverse).reverse

/-- `StyledStr::wrap`: run the main pass from line width 0, then trim the
trailing whitespace of the result. -/
def StyledStr.wrap (hard : Nat) (cw : Char → Nat) (b : List Run) : List Run :=
  trimEndRuns (wrapRunsCore hard cw 0 b).1

/-- A concrete external width function for witnesses: every character one
column wide (the ASCII-printable contract). -/
def cwOne : Char → Nat := fun _ => 1

/-- The `CustomCompleter` capability: produce all candidates for an
argument.  The candidate type is opaque here (`α`). -/
structure CustomCompleter (α : Type) where
  completions : Unit → List α

/-- The blanket `impl CustomCompleter for F where F: Fn() -> Vec<_>`:
a caller-supplied function is a completer whose `completions` simply
invokes it. -/
def fnCustomCompleter {α : Type} (f : Unit → List α) : CustomCompleter α :=
  ⟨fun u => f u⟩

/-- `ArgValueCompleter`: a wrapper holding a shared custom completer. -/
structure ArgValueCompleter (α : Type) where
  inner : CustomCompleter α

/-- `ArgValueCompleter::new`: store the given completer. -/
def ArgValueCompleter.new {α : Type} (c : CustomCompleter α) : ArgValueCompleter α :=
  ⟨c⟩

/-- `ArgValueCompleter::completions`: delegate to the stored completer. -/
def ArgValueCompleter.completions {α : Type} (a : ArgValueCompleter α) : List α :=
  a.inner.completions ()

/-- The claim's exception, read generously: the line consists of exactly
one word and that word alone is wider than the hard width. -/
def exceptionHolds (cw : Char → Nat) (w : Nat) (line : List Char) : Bool :=
  match wordsOf line with
  | [wd] => decide (w < widthL cw wd)
  | _ => false

theorem grabSpaces_append_eq (l : List Char) : (grabSpaces l).1 ++ (grabSpaces l).2 = l := by
  induction l with
  | nil => rfl
  | cons c cs ih =>
    simp only [grabSpaces]
    split
    · simpa using ih
    · simp

theorem grabWord_append_eq (l : List Char) : (grabWord l).1 ++ (grabWord l).2 = l := by
  induction l with
  | nil => rfl
  | cons c cs ih =>
    simp only [grabWord]
    split
    · simpa using ih
    · simp

theorem grabSpaces_snd_length (l : List Char) : (grabSpaces l).2.length ≤ l.length := by
  induction l with
  | nil => simp [grabSpaces]
  | cons c cs ih =>
    simp only [grabSpaces]
    split
    · exact Nat.le_succ_of_le ih
    · simp

theorem grabWord_snd_length (l : List Char) : (grabWord l).2.length ≤ l.length := by
  induction l with
  | nil => simp [grabWord]
  | cons c cs ih =>
    simp only [grabWord]
    split
    · exact Nat.le_succ_of_le ih
    · simp

theorem grabSpaces_mem (l : List Char) : ∀ c ∈ (grabSpaces l).1, c = ' ' := by
  induction l with
  | nil => simp [grabSpaces]
  | cons c cs ih =>
    simp only [grabSpaces]
    split
    · next h => simpa [h] using ih
    · simp

theorem grabWord_mem (l : List Char) : ∀ c ∈ (grabWord l).1, c ≠ ' ' ∧ c ≠ '\n' := by
  induction l with
  | nil => simp [grabWord]
  | cons c cs ih =>
    simp only [grabWord]
    split
    · next h => simpa [h] using ih
    · simp

theorem grabSpaces_snd_head (l : List Char) : (grabSpaces l).2.head? ≠ some ' ' := by
  induction l with
  | nil => simp [grabSpaces]
  | cons c cs ih =>
    simp only [grabSpaces]
    split
    · exact ih
    · next h => simpa using h

theorem grabWord_snd_head (l : List Char) :
    (grabWord l).2.head? = none ∨ (grabWord l).2.head? = some ' ' ∨
    (grabWord l).2.head? = some '\n' := by
  induction l with
  | nil => simp [grabWord]
  | cons c cs ih =>
    simp only [grabWord]
    split
    · exact ih
    · next h =>
      rcases Decidable.not_and_iff_or_not.mp h with h' | h'
      · right; left; simp [Decidable.not_not.mp h']
      · right; right; simp [Decidable.not_not.mp h']

/-- Appending past the stop character: grabbing spaces commutes with
appending a suffix that does not start with a space. -/
theorem grabSpaces_append (x z : List Char) (hz : z.head? ≠ some ' ') :
    grabSpaces (x ++ z) = ((grabSpaces x).1, (grabSpaces x).2 ++ z) := by
  induction x with
  | nil =>
    cases z with
    | nil => simp [grabSpaces]
    | cons c cs =>
      have hc : c ≠ ' ' := by simpa using hz
      simp [grabSpaces, hc]
  | cons c cs ih =>
    simp only [List.cons_append, grabSpaces, List.append_eq]
    split
    · simp [ih]
    · simp

theorem grabWord_append (x z : List Char)
    (hz : z.head? = some ' ' ∨ z.head? = some '\n') :
    grabWord (x ++ z) = ((grabWord x).1, (grabWord x).2 ++ z) := by
  induction x with
  | nil =>
    cases z with
    | nil => simp at hz
    | cons c cs =>
      have hc : c = ' ' ∨ c = '\n' := by
        rcases hz with h | h
        · left; simpa using h
        · right; simpa using h
      have hc' : ¬(c ≠ ' ' ∧ c ≠ '\n') := by
        rcases hc with h | h <;> simp [h]
      simp [grabWord, hc']
  | cons c cs ih =>
    simp only [List.cons_append, grabWord, List.append_eq]
    split
    · simp [ih]
    · simp

/-- An all-space list is grabbed whole. -/
theorem grabSpaces_all (x : List Char) (hx : ∀ c ∈ x, c = ' ') :
    grabSpaces x = (x, []) := by
  induction x with
  | nil => rfl
  | cons c cs ih =>
    simp only [grabSpaces]
    rw [if_pos (hx c (by simp))]
    rw [ih (fun c hc => hx c (by simp [hc]))]

/-- An all-word-character list is grabbed whole. -/
theorem grabWord_all (x : List Char) (hx : ∀ c ∈ x, c ≠ ' ' ∧ c ≠ '\n') :
    grabWord x = (x, []) := by
  induction x with
  | nil => rfl
  | cons c cs ih =>
    simp only [grabWord]
    rw [if_pos (hx c (by simp))]
    rw [ih (fun c hc => hx c (by simp [hc]))]

theorem linesOf_ne_nil (l : List Char) : linesOf l ≠ [] := by
  cases l with
  | nil => simp [linesOf]
  | cons c cs =>
    simp only [linesOf]
    split
    · simp
    · simp

theorem linesOf_nl (cs : List Char) : linesOf ('\n' :: cs) = [] :: linesOf cs := by
  simp [linesOf]

theorem linesOf_cons {c : Char} (cs : List Char) (hc : c ≠ '\n') :
    linesOf (c :: cs) = (c :: (linesOf cs).headI) :: (linesOf cs).tail := by
  simp [linesOf, hc]

/-- Prepending line-feed-free text extends the first segment. -/
theorem linesOf_append (a l : List Char) (ha : ∀ c ∈ a, c ≠ '\n') :
    linesOf (a ++ l) = (a ++ (linesOf l).headI) :: (linesOf l).tail := by
  induction a with
  | nil =>
    obtain ⟨x, xs, hx⟩ := List.exists_cons_of_ne_nil (linesOf_ne_nil l)
    simp [hx]
  | cons c cs ih =>
    have hc : c ≠ '\n' := ha c (by simp)
    rw [List.cons_append, linesOf_cons _ hc, ih (fun c hc => ha c (by simp [hc]))]
    simp

theorem grabSpaces_snd_lt (c : Char) (cs : List Char) (h : c = ' ') :
    (grabSpaces (c :: cs)).2.length < (c :: cs).length := by
  simp only [grabSpaces, if_pos h, List.length_cons]
  exact Nat.lt_succ_of_le (grabSpaces_snd_length cs)

theorem grabWord_snd_lt (c : Char) (cs : List Char) (h : c ≠ ' ' ∧ c ≠ '\n') :
    (grabWord (c :: cs)).2.length < (c :: cs).length := by
  simp only [grabWord, if_pos h, List.length_cons]
  exact Nat.lt_succ_of_le (grabWord_snd_length cs)

theorem wordsOfGo_fuel :
    ∀ n m (l : List Char), l.length ≤ n → l.length ≤ m →
      wordsOfGo n l = wordsOfGo m l := by
  intro n
  induction n with
  | zero =>
    intro m l hn hm
    have : l = [] := List.length_eq_zero.mp (Nat.le_zero.mp hn)
    subst this
    cases m <;> rfl
  | succ n ih =>
    intro m l hn hm
    cases l with
    | nil => cases m <;> rfl
    | cons c cs =>
      cases m with
      | zero => simp at hm
      | succ m =>
        simp only [wordsOfGo]
        by_cases hc : c = ' ' ∨ c = '\n'
        · simp only [if_pos hc]
          simp only [List.length_cons] at hn hm
          exact ih m cs (by omega) (by omega)
        · simp only [if_neg hc]
          have hc' : c ≠ ' ' ∧ c ≠ '\n' := by tauto
          have hlt := grabWord_snd_lt c cs hc'
          simp only [List.length_cons] at hlt hn hm
          rw [ih m _ (by omega) (by omega)]

theorem wordsOfGo_eq_wordsOf (n : Nat) (l : List Char) (hn : l.length ≤ n) :
    wordsOfGo n l = wordsOf l :=
  wordsOfGo_fuel n l.length l hn (le_refl _)

theorem wordsOf_sp (cs : List Char) : wordsOf (' ' :: cs) = wordsOf cs := by
  show wordsOfGo (cs.length + 1) (' ' :: cs) = _
  simp only [wordsOfGo, true_or, if_true]
  rfl

theorem wordsOf_nl (cs : List Char) : wordsOf ('\n' :: cs) = wordsOf cs := by
  show wordsOfGo (cs.length + 1) ('\n' :: cs) = _
  simp only [wordsOfGo, or_true, if_true]
  rfl

/-- A word block followed by a separator (or nothing) contributes itself. -/
theorem wordsOf_word (wd z : List Char) (hwd : wd ≠ [])
    (hw : ∀ c ∈ wd, c ≠ ' ' ∧ c ≠ '\n')
    (hz : z.head? = none ∨ z.head? = some ' ' ∨ z.head? = some '\n') :
    wordsOf (wd ++ z) = wd :: wordsOf z := by
  cases wd with
  | nil => exact absurd rfl hwd
  | cons c cs =>
    have hc := hw c (by simp)
    have hgw : grabWord (c :: cs ++ z) = (c :: cs, z) := by
      rcases hz with h | h
      · have : z = [] := by cases z <;> simp_all
        subst this
        rw [List.append_nil]
        exact grabWord_all _ hw
      · rw [grabWord_append _ _ h, grabWord_all _ hw]
        simp
    show wordsOfGo ((c :: cs ++ z).length) (c :: (cs ++ z)) = _
    have hlen : (c :: cs ++ z).length = (cs ++ z).length + 1 := by simp
    rw [hlen]
    simp only [wordsOfGo]
    rw [if_neg (by tauto), ← List.cons_append, hgw]
    rw [wordsOfGo_eq_wordsOf _ z (by simp)]

theorem wrapTextGo_fuel (hard : Nat) (cw : Char → Nat) :
    ∀ n m lw (l : List Char), l.length ≤ n → l.length ≤ m →
      wrapTextGo hard cw n lw l = wrapTextGo hard cw m lw l := by
  intro n
  induction n with
  | zero =>
    intro m lw l hn hm
    have : l = [] := List.length_eq_zero.mp (Nat.le_zero.mp hn)
    subst this
    cases m <;> rfl
  | succ n ih =>
    intro m lw l hn hm
    cases l with
    | nil => cases m <;> rfl
    | cons c cs =>
      cases m with
      | zero => simp at hm
      | succ m =>
        simp only [wrapTextGo]
        by_cases hnl : c = '\n'
        · simp only [if_pos hnl]
          have h1 : cs.length ≤ n := by simp only [List.length_cons] at hn; omega
          have h2 : cs.length ≤ m := by simp only [List.length_cons] at hm; omega
          rw [ih m 0 cs h1 h2]
        · simp only [if_neg hnl]
          by_cases hsp : c = ' '
          · simp only [if_pos hsp]
            have hlt := grabSpaces_snd_lt c cs hsp
            simp only [List.length_cons] at hlt hn hm
            rw [ih m _ _ (by omega) (by omega)]
          · simp only [if_neg hsp]
            have hlt := grabWord_snd_lt c cs ⟨hsp, hnl⟩
            simp only [List.length_cons] at hlt hn hm
            split
            · rw [ih m _ _ (by omega) (by omega)]
            · rw [ih m _ _ (by omega) (by omega)]

theorem wrapTextGo_eq_wrapText (hard : Nat) (cw : Char → Nat) (n lw : Nat)
    (l : List Char) (hn : l.length ≤ n) :
    wrapTextGo hard cw n lw l = wrapText hard cw lw l :=
  wrapTextGo_fuel hard cw n l.length lw l hn (le_refl _)

theorem wrapText_nil (hard : Nat) (cw : Char → Nat) (lw : Nat) :
    wrapText hard cw lw [] = ([], lw) := rfl

theorem wrapText_nl (hard : Nat) (cw : Char → Nat) (lw : Nat) (cs : List Char) :
    wrapText hard cw lw ('\n' :: cs) =
      ('\n' :: (wrapText hard cw 0 cs).1, (wrapText hard cw 0 cs).2) := by
  show wrapTextGo hard cw (cs.length + 1) lw ('\n' :: cs) = _
  simp only [wrapTextGo, if_true]
  rw [wrapTextGo_eq_wrapText hard cw cs.length 0 cs (le_refl _)]

theorem wrapText_space (hard : Nat) (cw : Char → Nat) (lw : Nat) {c : Char}
    (cs : List Char) (hc : c = ' ') :
    wrapText hard cw lw (c :: cs) =
      ((grabSpaces (c :: cs)).1 ++
        (wrapText hard cw (lw + widthL cw (grabSpaces (c :: cs)).1)
          (grabSpaces (c :: cs)).2).1,
       (wrapText hard cw (lw + widthL cw (grabSpaces (c :: cs)).1)
          (grabSpaces (c :: cs)).2).2) := by
  have hnl : ¬c = '\n' := by subst hc; decide
  show wrapTextGo hard cw (cs.length + 1) lw (c :: cs) = _
  simp only [wrapTextGo, if_neg hnl, if_pos hc]
  have hlt := grabSpaces_snd_lt c cs hc
  simp only [List.length_cons] at hlt
  rw [wrapTextGo_eq_wrapText hard cw cs.length _ _ (by omega)]

theorem wrapText_word_brk (hard : Nat) (cw : Char → Nat) (lw : Nat) {c : Char}
    (cs : List Char) (hc : c ≠ ' ' ∧ c ≠ '\n')
    (hbrk : 0 < lw ∧ hard < lw + widthL cw (grabWord (c :: cs)).1) :
    wrapText hard cw lw (c :: cs) =
      ('\n' :: ((grabWord (c :: cs)).1 ++
        (wrapText hard cw (widthL cw (grabWord (c :: cs)).1)
          (grabWord (c :: cs)).2).1),
       (wrapText hard cw (widthL cw (grabWord (c :: cs)).1)
          (grabWord (c :: cs)).2).2) := by
  show wrapTextGo hard cw (cs.length + 1) lw (c :: cs) = _
  simp only [wrapTextGo, if_neg hc.2, if_neg hc.1, if_pos hbrk]
  have hlt := grabWord_snd_lt c cs hc
  simp only [List.length_cons] at hlt
  rw [wrapTextGo_eq_wrapText hard cw cs.length _ _ (by omega)]

theorem wrapText_word_no (hard : Nat) (cw : Char → Nat) (lw : Nat) {c : Char}
    (cs : List Char) (hc : c ≠ ' ' ∧ c ≠ '\n')
    (hno : ¬(0 < lw ∧ hard < lw + widthL cw (grabWord (c :: cs)).1)) :
    wrapText hard cw lw (c :: cs) =
      ((grabWord (c :: cs)).1 ++
        (wrapText hard cw (lw + widthL cw (grabWord (c :: cs)).1)
          (grabWord (c :: cs)).2).1,
       (wrapText hard cw (lw + widthL cw (grabWord (c :: cs)).1)
          (grabWord (c :: cs)).2).2) := by
  show wrapTextGo hard cw (cs.length + 1) lw (c :: cs) = _
  simp only [wrapTextGo, if_neg hc.2, if_neg hc.1, if_neg hno]
  have hlt := grabWord_snd_lt c cs hc
  simp only [List.length_cons] at hlt
  rw [wrapTextGo_eq_wrapText hard cw cs.length _ _ (by omega)]

theorem widthL_append (cw : Char → Nat) (a b : List Char) :
    widthL cw (a ++ b) = widthL cw a + widthL cw b := by
  simp [widthL]

theorem widthL_flatten (cw : Char → Nat) (L : List (List Char)) :
    widthL cw L.flatten = (L.map (widthL cw)).sum := by
  induction L with
  | nil => rfl
  | cons x xs ih => simp [widthL_append, ih]

theorem iter_text_append (p q : List Run) :
    StyledStr.iter_text (p ++ q) = StyledStr.iter_text p ++ StyledStr.iter_text q := by
  simp [StyledStr.iter_text]

theorem iter_text_filter (b : List Run) :
    StyledStr.iter_text b = (b.filter Run.isVis).map Run.chars := by
  induction b with
  | nil => rfl
  | cons r rs ih =>
    cases r with
    | vis s => simpa [StyledStr.iter_text, Run.isVis, Run.chars] using ih
    | sty s => simpa [StyledStr.iter_text, Run.isVis] using ih

/-- Claim C10: for every caller-supplied completer function `f`,
`ArgValueCompleter::new(f).completions()` returns exactly the candidate
list produced by invoking `f`, unchanged in content and order. -/
theorem completions_passthrough (α : Type) (f : Unit → List α) :
    (ArgValueCompleter.new (fnCustomCompleter f)).completions = f () := rfl

/-- Claim C9: raw emission writes the stored raw buffer byte-for-byte to
the sink, succeeds exactly when the sink's write succeeds, and propagates
the sink's error unchanged. -/
theorem write_to_raw_propagates (ε : Type) (sink : List Char → Except ε Unit)
    (b : List Run) : StyledStr.write_to sink b = sink (rawOf b) := by
  cases h : sink (rawOf b) with
  | error e => simp [StyledStr.write_to, h]
  | ok u => cases u; simp [StyledStr.write_to, h]

/-- Claim C8: the plain rendering equals the concatenation of the visible
spans in order (equivalently, of the visible runs of the partition), and
style runs contribute no characters to it wherever they occur. -/
theorem render_plain_visible_concat :
    (∀ p q : List Run, ∀ s : List Char,
      StyledStr.render_plain (p ++ [Run.sty s] ++ q) =
        StyledStr.render_plain (p ++ q)) ∧
    (∀ b : List Run,
      StyledStr.render_plain b = ((b.filter Run.isVis).map Run.chars).flatten) := by
  constructor
  · intro p q s
    simp [StyledStr.render_plain, iter_text_append, StyledStr.iter_text]
  · intro b
    rw [StyledStr.render_plain, iter_text_filter]

/-- Claim C5: `display_width` sums the external per-character width over
the visible spans only — style runs never contribute, wherever they
occur, and a buffer with no visible run has display width 0. -/
theorem display_width_visible_only (cw : Char → Nat) :
    (∀ p q : List Run, ∀ s : List Char,
      StyledStr.display_width cw (p ++ [Run.sty s] ++ q) =
        StyledStr.display_width cw (p ++ q)) ∧
    (∀ b : List Run,
      StyledStr.display_width cw b = widthL cw (StyledStr.iter_text b).flatten) ∧
    (∀ b : List Run, (∀ r ∈ b, r.isVis = false) →
      StyledStr.display_width cw b = 0) := by
  refine ⟨?_, ?_, ?_⟩
  · intro p q s
    simp [StyledStr.display_width, iter_text_append, StyledStr.iter_text]
  · intro b
    rw [widthL_flatten]
    rfl
  · intro b hb
    have : StyledStr.iter_text b = [] := by
      rw [iter_text_filter]
      have : b.filter Run.isVis = [] := by
        rw [List.filter_eq_nil_iff]
        intro r hr
        simp [hb r hr]
      simp [this]
    simp [StyledStr.display_width, this]

/-- Witness for C5 at a concrete style-only buffer. -/
theorem display_width_visible_only_witness :
    (∀ r ∈ [Run.sty ("\x1b[1m".toList), Run.sty ("\x1b[0m".toList)],
      r.isVis = false) ∧
    StyledStr.display_width cwOne
      [Run.sty ("\x1b[1m".toList), Run.sty ("\x1b[0m".toList)] = 0 :=
  ⟨by decide, (display_width_visible_only cwOne).2.2 _ (by decide)⟩

theorem dropTrailingWs_nil_iff (l : List Char) :
    dropTrailingWs l = [] ↔ ∀ c ∈ l, isWs c = true := by
  induction l with
  | nil => simp [dropTrailingWs]
  | cons c cs ih =>
    simp only [dropTrailingWs]
    split
    · next h =>
      refine ⟨fun _ d hd => ?_, fun _ => rfl⟩
      rcases List.mem_cons.mp hd with rfl | hd'
      · exact h.2
      · exact ih.mp h.1 d hd'
    · next h =>
      constructor
      · intro h'
        exact absurd h' (List.cons_ne_nil _ _)
      · intro h'
        have h1 : dropTrailingWs cs = [] := ih.mpr fun d hd => h' d (by simp [hd])
        have h2 : isWs c = true := h' c (by simp)
        exact absurd ⟨h1, h2⟩ h

theorem dropTrailingWs_sfx (l : List Char) :
    ∃ s, l = dropTrailingWs l ++ s ∧ ∀ c ∈ s, isWs c = true := by
  induction l with
  | nil => exact ⟨[], rfl, by simp⟩
  | cons c cs ih =>
    obtain ⟨s, hs, hws⟩ := ih
    simp only [dropTrailingWs]
    split
    · next h =>
      refine ⟨c :: cs, by simp, ?_⟩
      intro d hd
      rcases List.mem_cons.mp hd with rfl | hd'
      · exact h.2
      · exact (dropTrailingWs_nil_iff cs).mp h.1 d hd'
    · next h =>
      exact ⟨s, by simpa using hs, hws⟩

theorem dropTrailingWs_getLast (l : List Char) :
    ((dropTrailingWs l).getLast?.all fun c => !(isWs c)) = true := by
  induction l with
  | nil => simp [dropTrailingWs]
  | cons c cs ih =>
    simp only [dropTrailingWs]
    split
    · simp
    · next h =>
      cases hr : dropTrailingWs cs with
      | nil =>
        have hc : isWs c = false := by
          by_cases h' : isWs c = true
          · exact absurd ⟨hr, h'⟩ h
          · simpa using h'
        simp [hc]
      | cons d ds =>
        rw [hr] at ih
        simpa [List.getLast?_cons_cons] using ih

theorem dropTrailingWs_head (l : List Char) (h : dropTrailingWs l ≠ []) :
    (dropTrailingWs l).head? = l.head? := by
  cases l with
  | nil => rfl
  | cons c cs =>
    simp only [dropTrailingWs] at h ⊢
    by_cases hcond : dropTrailingWs cs = [] ∧ isWs c = true
    · rw [if_pos hcond] at h
      exact absurd rfl h
    · rw [if_neg hcond]
      simp

theorem dropWhile_head_not (p : Char → Bool) (l : List Char) :
    ((l.dropWhile p).head?.all fun c => !(p c)) = true := by
  induction l with
  | nil => simp
  | cons c cs ih =>
    by_cases hc : p c = true
    · simpa [List.dropWhile_cons, hc] using ih
    · simp only [List.dropWhile_cons]
      rw [if_neg (by simp [hc])]
      simp only [List.head?_cons, Option.all_some]
      simpa using hc

/-- Claim C7: `trim()` removes exactly the leading and trailing whitespace
of the raw sequence and leaves the interior unchanged; in particular
`trim("  text  ") = "text"`. -/
theorem trim_exact :
    (StyledStr.trim ("  text  ".toList) = "text".toList) ∧
    ∀ l : List Char, ∃ a b : List Char,
      (∀ c ∈ a, isWs c = true) ∧ (∀ c ∈ b, isWs c = true) ∧
      l = a ++ StyledStr.trim l ++ b ∧
      ((StyledStr.trim l).head?.all fun c => !(isWs c)) = true ∧
      ((StyledStr.trim l).getLast?.all fun c => !(isWs c)) = true := by
  constructor
  · decide
  · intro l
    refine ⟨l.takeWhile (fun c => isWs c), ?_⟩
    obtain ⟨s, hs, hws⟩ := dropTrailingWs_sfx (l.dropWhile fun c => isWs c)
    refine ⟨s, ?_, hws, ?_, ?_, dropTrailingWs_getLast _⟩
    · intro c hc
      simpa using List.mem_takeWhile_imp hc
    · conv_lhs => rw [← List.takeWhile_append_dropWhile (p := fun c => isWs c) (l := l)]
      rw [StyledStr.trim, List.append_assoc, ← hs]
    · by_cases h : StyledStr.trim l = []
      · simp [h]
      · rw [StyledStr.trim] at h ⊢
        rw [dropTrailingWs_head _ h]
        exact dropWhile_head_not _ _

/-- Line-feed-free text passes through the `indent` replacement unchanged. -/
theorem flatMap_repl_id (trailing x : List Char) (hx : ∀ c ∈ x, c ≠ '\n') :
    (x.flatMap fun c => if c = '\n' then '\n' :: trailing else [c]) = x := by
  induction x with
  | nil => rfl
  | cons c cs ih =>
    rw [List.flatMap_cons, if_neg (hx c (by simp)), ih fun d hd => hx d (by simp [hd])]
    rfl

/-- Segment structure of the line-feed replacement: with a line-feed-free
`trailing`, every segment after the first gains the `trailing` as a
new first part. -/
theorem linesOf_repl (trailing : List Char) (ht : ∀ c ∈ trailing, c ≠ '\n')
    (l : List Char) :
    linesOf (l.flatMap fun c => if c = '\n' then '\n' :: trailing else [c]) =
      (linesOf l).headI :: ((linesOf l).tail.map fun s => trailing ++ s) := by
  induction l with
  | nil => simp [linesOf]
  | cons c cs ih =>
    by_cases hc : c = '\n'
    · subst hc
      rw [List.flatMap_cons, if_pos rfl]
      have h1 : ('\n' :: trailing) ++
          (cs.flatMap fun c => if c = '\n' then '\n' :: trailing else [c]) =
          '\n' :: (trailing ++
            (cs.flatMap fun c => if c = '\n' then '\n' :: trailing else [c])) := by
        simp
      rw [h1, linesOf_nl, linesOf_append _ _ ht, ih]
      rw [linesOf_nl]
      obtain ⟨x, xs, hx⟩ := List.exists_cons_of_ne_nil (linesOf_ne_nil cs)
      simp [hx]
    · rw [List.flatMap_cons, if_neg hc]
      have h1 : [c] ++ (cs.flatMap fun d => if d = '\n' then '\n' :: trailing else [d]) =
          c :: (cs.flatMap fun d => if d = '\n' then '\n' :: trailing else [d]) := rfl
      rw [h1, linesOf_cons _ hc, ih, linesOf_cons _ hc]
      simp

/-- Claim C6, counterexample: with an `initial` that itself contains a
line feed, `indent` does not preserve the number of line-feed-delimited
segments (the source prepends `initial` before performing the global
line-feed replacement). -/
theorem indent_claim_refuted :
    (linesOf (StyledStr.indent ['\n'] [] ['A'])).length ≠
      (linesOf ['A']).length := by
  decide

/-- Claim C6, amended: provided `initial` and `trailing` are line-feed
free, `indent(initial, trailing)` yields `initial` prepended to the
buffer with every line feed replaced by line feed + `trailing`; the
segment count is preserved, the first segment is prefixed with `initial`
and every later one with `trailing`; the claim's example holds. -/
theorem indent_amended :
    (StyledStr.indent ("  ".toList) ("    ".toList) ("A\nB".toList) =
      "  A\n    B".toList) ∧
    ∀ initial trailing l : List Char,
      (∀ c ∈ initial, c ≠ '\n') → (∀ c ∈ trailing, c ≠ '\n') →
      (StyledStr.indent initial trailing l =
        initial ++ (l.flatMap fun c => if c = '\n' then '\n' :: trailing else [c])) ∧
      linesOf (StyledStr.indent initial trailing l) =
        (initial ++ (linesOf l).headI) ::
          ((linesOf l).tail.map fun s => trailing ++ s) := by
  constructor
  · decide
  · intro initial trailing l hi ht
    have h1 : StyledStr.indent initial trailing l =
        initial ++ (l.flatMap fun c => if c = '\n' then '\n' :: trailing else [c]) := by
      rw [StyledStr.indent, List.flatMap_append, flatMap_repl_id _ _ hi]
    refine ⟨h1, ?_⟩
    rw [h1, linesOf_append _ _ hi, linesOf_repl _ ht]
    simp

/-- Witness for C6 at the claim's example. -/
theorem indent_amended_witness :
    StyledStr.indent ("  ".toList) ("    ".toList) ("A\nB".toList) =
      "  A\n    B".toList :=
  indent_amended.1

/-- Decomposition of wrapping at an explicit line feed: the text after the
line feed is processed from a fresh zero line width, with no carry-over,
wherever the line feed sits. -/
theorem wrapText_split_nl (hard : Nat) (cw : Char → Nat) :
    ∀ n (a : List Char), a.length ≤ n → ∀ lw rest,
      wrapText hard cw lw (a ++ '\n' :: rest) =
        ((wrapText hard cw lw (a ++ ['\n'])).1 ++ (wrapText hard cw 0 rest).1,
         (wrapText hard cw 0 rest).2) := by
  intro n
  induction n with
  | zero =>
    intro a ha lw rest
    have : a = [] := List.length_eq_zero.mp (Nat.le_zero.mp ha)
    subst this
    simp only [List.nil_append, wrapText_nl, wrapText_nil]
    simp
  | succ n ih =>
    intro a ha lw rest
    cases a with
    | nil =>
      simp only [List.nil_append, wrapText_nl, wrapText_nil]
      simp
    | cons c cs =>
      by_cases hnl : c = '\n'
      · subst hnl
        simp only [List.cons_append, wrapText_nl]
        rw [ih cs (by simpa using Nat.lt_succ_iff.mp (Nat.lt_of_lt_of_le (by simp) ha)) 0 rest]
      · by_cases hsp : c = ' '
        · have h1 := grabSpaces_append (c :: cs) ('\n' :: rest) (by simp)
          have h2 := grabSpaces_append (c :: cs) ['\n'] (by simp)
          rw [List.cons_append] at h1 h2
          simp only [List.cons_append]
          rw [wrapText_space hard cw lw _ hsp, wrapText_space hard cw lw _ hsp, h1, h2]
          have hlen : (grabSpaces (c :: cs)).2.length ≤ n := by
            have := grabSpaces_snd_lt c cs hsp
            have ha' : (c :: cs).length ≤ n + 1 := ha
            simp only [List.length_cons] at this ha'
            omega
          rw [ih _ hlen]
          simp
        · have hc : c ≠ ' ' ∧ c ≠ '\n' := ⟨hsp, hnl⟩
          have h1 := grabWord_append (c :: cs) ('\n' :: rest) (by simp)
          have h2 := grabWord_append (c :: cs) ['\n'] (by simp)
          rw [List.cons_append] at h1 h2
          simp only [List.cons_append]
          have hlen : (grabWord (c :: cs)).2.length ≤ n := by
            have := grabWord_snd_lt c cs hc
            have ha' : (c :: cs).length ≤ n + 1 := ha
            simp only [List.length_cons] at this ha'
            omega
          by_cases hbrk : 0 < lw ∧ hard < lw + widthL cw (grabWord (c :: (cs ++ '\n' :: rest))).1
          · have hbrk2 : 0 < lw ∧ hard < lw + widthL cw (grabWord (c :: (cs ++ ['\n']))).1 := by
              rw [h2]
              rw [h1] at hbrk
              exact hbrk
            rw [wrapText_word_brk hard cw lw _ hc hbrk, wrapText_word_brk hard cw lw _ hc hbrk2,
              h1, h2]
            rw [ih _ hlen]
            simp
          · have hbrk2 : ¬(0 < lw ∧ hard < lw + widthL cw (grabWord (c :: (cs ++ ['\n']))).1) := by
              rw [h2]
              rw [h1] at hbrk
              exact hbrk
            rw [wrapText_word_no hard cw lw _ hc hbrk, wrapText_word_no hard cw lw _ hc hbrk2,
              h1, h2]
            rw [ih _ hlen]
            simp

/-- After consuming text ending in a line feed, the line width is zero. -/
theorem wrapText_end_nl (hard : Nat) (cw : Char → Nat) (lw : Nat) (a : List Char) :
    (wrapText hard cw lw (a ++ ['\n'])).2 = 0 := by
  have h := wrapText_split_nl hard cw a.length a (le_refl _) lw []
  rw [show ('\n' : Char) :: [] = ['\n'] from rfl] at h
  rw [h, wrapText_nil]

/-- Style runs pass through the main wrap pass carrying the state along. -/
theorem wrapRunsCore_sty_map (hard : Nat) (cw : Char → Nat) (ss : List (List Char)) :
    ∀ lw rs, wrapRunsCore hard cw lw (ss.map Run.sty ++ rs) =
      (ss.map Run.sty ++ (wrapRunsCore hard cw lw rs).1,
       (wrapRunsCore hard cw lw rs).2) := by
  induction ss with
  | nil => simp
  | cons s ss ih =>
    intro lw rs
    simp only [List.map_cons, List.cons_append, wrapRunsCore, List.append_eq]
    rw [ih]

/-- Claim C4: wrap resets its current-line-width accounting to zero at an
explicit line feed regardless of position: (1) consuming through a
trailing line feed always leaves the line width at zero; (2) text after a
line feed inside a span is processed from a fresh zero line width, with
no carry-over; (3) with the line feed at the end of one visible span and
the next word in a later visible span separated by style runs, the later
span is still wrapped from line width zero. -/
theorem wrap_resets_at_line_feed (hard : Nat) (cw : Char → Nat) :
    (∀ lw (a : List Char), (wrapText hard cw lw (a ++ ['\n'])).2 = 0) ∧
    (∀ lw (a rest : List Char),
      wrapText hard cw lw (a ++ '\n' :: rest) =
        ((wrapText hard cw lw (a ++ ['\n'])).1 ++ (wrapText hard cw 0 rest).1,
         (wrapText hard cw 0 rest).2)) ∧
    (∀ lw (a : List Char) (ss : List (List Char)) (b : List Char),
      (wrapRunsCore hard cw lw
        ([Run.vis (a ++ ['\n'])] ++ ss.map Run.sty ++ [Run.vis b])).1 =
      [Run.vis (wrapText hard cw lw (a ++ ['\n'])).1] ++ ss.map Run.sty ++
        [Run.vis (wrapText hard cw 0 b).1]) := by
  refine ⟨fun lw a => wrapText_end_nl hard cw lw a,
    fun lw a rest => wrapText_split_nl hard cw a.length a (le_refl _) lw rest,
    fun lw a ss b => ?_⟩
  simp only [List.cons_append, List.nil_append, wrapRunsCore, List.append_eq]
  rw [wrapText_end_nl hard cw lw a, wrapRunsCore_sty_map]
  simp [wrapRunsCore]

theorem dropTrailingWs_no_ws (s : List Char) (h : ∀ c ∈ s, isWs c = false) :
    dropTrailingWs s = s := by
  induction s with
  | nil => rfl
  | cons c cs ih =>
    simp only [dropTrailingWs]
    rw [ih fun d hd => h d (by simp [hd])]
    split
    · next h' => exact absurd h'.2 (by simp [h c (by simp)])
    · rfl

theorem styleRuns_append (p q : List Run) :
    styleRuns (p ++ q) = styleRuns p ++ styleRuns q := by
  simp [styleRuns]

theorem styleRuns_reverse (b : List Run) :
    styleRuns b.reverse = (styleRuns b).reverse := by
  induction b with
  | nil => rfl
  | cons r rs ih =>
    cases r <;> simp [styleRuns_append, styleRuns, ih]

/-- The main wrap pass leaves the style runs untouched, in order. -/
theorem wrapRunsCore_styleRuns (hard : Nat) (cw : Char → Nat) :
    ∀ lw (b : List Run), styleRuns (wrapRunsCore hard cw lw b).1 = styleRuns b := by
  intro lw b
  induction b generalizing lw with
  | nil => rfl
  | cons r rs ih =>
    cases r with
    | vis s => simpa [wrapRunsCore, styleRuns] using ih _
    | sty s => simpa [wrapRunsCore, styleRuns] using ih _

/-- The trailing trim leaves style runs untouched when none of their
characters is whitespace. -/
theorem styleRuns_cons_vis (s : List Char) (rest : List Run) :
    styleRuns (Run.vis s :: rest) = styleRuns rest := by
  simp [styleRuns]

theorem styleRuns_cons_sty (s : List Char) (rest : List Run) :
    styleRuns (Run.sty s :: rest) = s :: styleRuns rest := by
  simp [styleRuns]

theorem trimEndRunsRev_styleRuns (x : List Run)
    (h : ∀ s ∈ styleRuns x, ∀ c ∈ s, isWs c = false) :
    styleRuns (trimEndRunsRev x) = styleRuns x := by
  induction x with
  | nil => rfl
  | cons r rest ih =>
    cases r with
    | vis s =>
      have hrest : ∀ t ∈ styleRuns rest, ∀ c ∈ t, isWs c = false := by
        rw [styleRuns_cons_vis] at h
        exact h
      simp only [trimEndRunsRev, trimRunEnd, Run.chars]
      split
      · rw [styleRuns_cons_vis, styleRuns_cons_vis]
        exact ih hrest
      · rw [styleRuns_cons_vis, styleRuns_cons_vis]
    | sty s =>
      rw [styleRuns_cons_sty] at h
      have hrest : ∀ t ∈ styleRuns rest, ∀ c ∈ t, isWs c = false :=
        fun t ht => h t (by simp [ht])
      have hs : dropTrailingWs s = s :=
        dropTrailingWs_no_ws s (h s (by simp))
      simp only [trimEndRunsRev, trimRunEnd, Run.chars, hs]
      split
      · rw [styleRuns_cons_sty, styleRuns_cons_sty]
        rw [ih hrest]
      · rw [styleRuns_cons_sty]

/-- Claim C1, counterexample: the original claim quantifies over every
buffer, but on a buffer whose trailing style run consists of whitespace
characters the final trailing trim of `wrap` (the source's
`new.trim_end()`) clips into the marker, so the style runs do not
survive verbatim: wrapping the buffer `[sty " "]` drops the marker's
only character. -/
theorem wrap_style_runs_claim_refuted :
    styleRuns (StyledStr.wrap 5 cwOne [Run.sty [' ']]) ≠
      styleRuns [Run.sty [' ']] := by
  decide

/-- Claim C1, amended: for every buffer whose escape markers are
well-formed in that no style run contains a whitespace character, and
every hard width, `wrap` inserts line breaks only between visible-text
characters: the style runs of the input appear in the output verbatim,
in their original order, none duplicated, dropped, or reordered, so no
break is ever placed inside a style run. -/
theorem wrap_style_runs_preserved (hard : Nat) (cw : Char → Nat) (b : List Run)
    (hwf : ∀ s ∈ styleRuns b, ∀ c ∈ s, isWs c = false) :
    styleRuns (StyledStr.wrap hard cw b) = styleRuns b := by
  rw [StyledStr.wrap, trimEndRuns]
  have hcore : styleRuns (wrapRunsCore hard cw 0 b).1 = styleRuns b :=
    wrapRunsCore_styleRuns hard cw 0 b
  have hrev : ∀ s ∈ styleRuns (wrapRunsCore hard cw 0 b).1.reverse,
      ∀ c ∈ s, isWs c = false := by
    intro s hs
    rw [styleRuns_reverse, List.mem_reverse, hcore] at hs
    exact hwf s hs
  rw [styleRuns_reverse, trimEndRunsRev_styleRuns _ hrev, styleRuns_reverse,
    List.reverse_reverse, hcore]

/-- Witness for C1 at a concrete styled buffer. -/
theorem wrap_style_runs_preserved_witness :
    (∀ s ∈ styleRuns [Run.vis ("Hello".toList), Run.sty ("\x1b[1m".toList),
        Run.vis (" World".toList)], ∀ c ∈ s, isWs c = false) ∧
    styleRuns (StyledStr.wrap 5 cwOne [Run.vis ("Hello".toList),
        Run.sty ("\x1b[1m".toList), Run.vis (" World".toList)]) =
      styleRuns [Run.vis ("Hello".toList), Run.sty ("\x1b[1m".toList),
        Run.vis (" World".toList)] :=
  ⟨by decide, wrap_style_runs_preserved 5 cwOne _ (by decide)⟩

theorem grabSpaces_cons {c : Char} (cs : List Char) (hc : c = ' ') :
    (grabSpaces (c :: cs)).1 = c :: (grabSpaces cs).1 := by
  simp [grabSpaces, hc]

theorem grabWord_cons {c : Char} (cs : List Char) (hc : c ≠ ' ' ∧ c ≠ '\n') :
    (grabWord (c :: cs)).1 = c :: (grabWord cs).1 := by
  simp [grabWord, hc]

/-- The wrapper's output never starts with a space unless its input does. -/
theorem wrapText_head_not_sp (hard : Nat) (cw : Char → Nat) (lw : Nat)
    (l : List Char) (hl : l.head? ≠ some ' ') :
    (wrapText hard cw lw l).1.head? ≠ some ' ' := by
  cases l with
  | nil => simp [wrapText_nil]
  | cons c cs =>
    by_cases hnl : c = '\n'
    · subst hnl
      rw [wrapText_nl]
      simp
    · by_cases hsp : c = ' '
      · exact absurd (by simp [hsp]) hl
      · have hc : c ≠ ' ' ∧ c ≠ '\n' := ⟨hsp, hnl⟩
        by_cases hbrk : 0 < lw ∧ hard < lw + widthL cw (grabWord (c :: cs)).1
        · rw [wrapText_word_brk hard cw lw cs hc hbrk]
          simp
        · rw [wrapText_word_no hard cw lw cs hc hbrk]
          rw [grabWord_cons cs hc]
          simpa using hsp

/-- The wrapper's output starts with a separator (or is empty) whenever
its input does. -/
theorem wrapText_head_sep (hard : Nat) (cw : Char → Nat) (lw : Nat)
    (l : List Char)
    (hl : l.head? = none ∨ l.head? = some ' ' ∨ l.head? = some '\n') :
    (wrapText hard cw lw l).1.head? = none ∨
    (wrapText hard cw lw l).1.head? = some ' ' ∨
    (wrapText hard cw lw l).1.head? = some '\n' := by
  cases l with
  | nil => simp [wrapText_nil]
  | cons c cs =>
    have hc : c = ' ' ∨ c = '\n' := by
      rcases hl with h | h | h
      · simp at h
      · left; simpa using h
      · right; simpa using h
    rcases hc with hc | hc
    · rw [wrapText_space hard cw lw cs hc, grabSpaces_cons cs hc]
      simp [hc]
    · subst hc
      rw [wrapText_nl]
      simp

theorem wordsOf_sp_append (sp x : List Char) (hsp : ∀ c ∈ sp, c = ' ') :
    wordsOf (sp ++ x) = wordsOf x := by
  induction sp with
  | nil => rfl
  | cons c cs ih =>
    have hc : c = ' ' := hsp c (by simp)
    subst hc
    rw [List.cons_append, wordsOf_sp, ih fun d hd => hsp d (by simp [hd])]

/-- The wrapper preserves the word sequence: line breaks are inserted
only at separators, never inside a word. -/
theorem wrapText_wordsOf (hard : Nat) (cw : Char → Nat) :
    ∀ n (l : List Char), l.length ≤ n → ∀ lw,
      wordsOf (wrapText hard cw lw l).1 = wordsOf l := by
  intro n
  induction n with
  | zero =>
    intro l hl lw
    have : l = [] := List.length_eq_zero.mp (Nat.le_zero.mp hl)
    subst this
    rfl
  | succ n ih =>
    intro l hl lw
    cases l with
    | nil => rfl
    | cons c cs =>
      by_cases hnl : c = '\n'
      · subst hnl
        rw [wrapText_nl]
        simp only [wordsOf_nl]
        exact ih cs (by simp only [List.length_cons] at hl; omega) 0
      · by_cases hsp : c = ' '
        · rw [wrapText_space hard cw lw cs hsp]
          have hmem := grabSpaces_mem (c :: cs)
          have hlen : (grabSpaces (c :: cs)).2.length ≤ n := by
            have := grabSpaces_snd_lt c cs hsp
            simp only [List.length_cons] at this hl
            omega
          rw [wordsOf_sp_append _ _ hmem, ih _ hlen]
          conv_rhs => rw [← grabSpaces_append_eq (c :: cs)]
          rw [wordsOf_sp_append _ _ hmem]
        · have hc : c ≠ ' ' ∧ c ≠ '\n' := ⟨hsp, hnl⟩
          have hmem := grabWord_mem (c :: cs)
          have hne : (grabWord (c :: cs)).1 ≠ [] := by
            rw [grabWord_cons cs hc]
            simp
          have hlen : (grabWord (c :: cs)).2.length ≤ n := by
            have := grabWord_snd_lt c cs hc
            simp only [List.length_cons] at this hl
            omega
          have hsep : ((wrapText hard cw (lw + widthL cw (grabWord (c :: cs)).1)
              (grabWord (c :: cs)).2).1.head? = none ∨ _ = some ' ' ∨ _ = some '\n') :=
            wrapText_head_sep hard cw _ _ (by
              rcases grabWord_snd_head (c :: cs) with h | h | h
              · exact Or.inl h
              · exact Or.inr (Or.inl h)
              · exact Or.inr (Or.inr h))
          have hsep2 : ((wrapText hard cw (widthL cw (grabWord (c :: cs)).1)
              (grabWord (c :: cs)).2).1.head? = none ∨ _ = some ' ' ∨ _ = some '\n') :=
            wrapText_head_sep hard cw _ _ (by
              rcases grabWord_snd_head (c :: cs) with h | h | h
              · exact Or.inl h
              · exact Or.inr (Or.inl h)
              · exact Or.inr (Or.inr h))
          have hrhs : wordsOf (c :: cs) =
              (grabWord (c :: cs)).1 :: wordsOf (grabWord (c :: cs)).2 := by
            conv_lhs => rw [← grabWord_append_eq (c :: cs)]
            exact wordsOf_word _ _ hne hmem (grabWord_snd_head (c :: cs))
          by_cases hbrk : 0 < lw ∧ hard < lw + widthL cw (grabWord (c :: cs)).1
          · rw [wrapText_word_brk hard cw lw cs hc hbrk]
            rw [show ('\n' :: ((grabWord (c :: cs)).1 ++
                (wrapText hard cw (widthL cw (grabWord (c :: cs)).1)
                  (grabWord (c :: cs)).2).1), (wrapText hard cw
                  (widthL cw (grabWord (c :: cs)).1) (grabWord (c :: cs)).2).2).1 =
              '\n' :: ((grabWord (c :: cs)).1 ++
                (wrapText hard cw (widthL cw (grabWord (c :: cs)).1)
                  (grabWord (c :: cs)).2).1) from rfl]
            rw [wordsOf_nl, wordsOf_word _ _ hne hmem hsep2, ih _ hlen, hrhs]
          · rw [wrapText_word_no hard cw lw cs hc hbrk]
            rw [show ((grabWord (c :: cs)).1 ++
                (wrapText hard cw (lw + widthL cw (grabWord (c :: cs)).1)
                  (grabWord (c :: cs)).2).1, (wrapText hard cw
                  (lw + widthL cw (grabWord (c :: cs)).1) (grabWord (c :: cs)).2).2).1 =
              (grabWord (c :: cs)).1 ++
                (wrapText hard cw (lw + widthL cw (grabWord (c :: cs)).1)
                  (grabWord (c :: cs)).2).1 from rfl]
            rw [wordsOf_word _ _ hne hmem hsep, ih _ hlen, hrhs]

theorem headI_mem_self (l : List (List Char)) (h : l ≠ []) : l.headI ∈ l := by
  cases l with
  | nil => exact absurd rfl h
  | cons a as => simp [List.headI]

theorem dropTrailingWs_append_ws (a s : List Char) (hs : ∀ c ∈ s, isWs c = true) :
    dropTrailingWs (a ++ s) = dropTrailingWs a := by
  induction a with
  | nil =>
    simp only [List.nil_append]
    exact (dropTrailingWs_nil_iff s).mpr hs
  | cons c cs ih =>
    simp only [List.cons_append, dropTrailingWs, List.append_eq]
    rw [ih]

theorem widthL_dropTrailingWs_le (cw : Char → Nat) (l : List Char) :
    widthL cw (dropTrailingWs l) ≤ widthL cw l := by
  obtain ⟨s, hs, _⟩ := dropTrailingWs_sfx l
  conv_rhs => rw [hs]
  rw [widthL_append]
  exact Nat.le_add_right _ _

theorem dropTrailingWs_subset (l : List Char) :
    ∀ c ∈ dropTrailingWs l, c ∈ l := by
  obtain ⟨s, hs, _⟩ := dropTrailingWs_sfx l
  intro c hc
  rw [hs]
  exact List.mem_append_left _ hc

theorem widthL_zero_no_space (cw : Char → Nat) (hsp : 1 ≤ cw ' ')
    (l : List Char) (hl : widthL cw l = 0) : ∀ c ∈ l, c ≠ ' ' := by
  induction l with
  | nil => simp
  | cons c cs ih =>
    simp only [widthL, List.map_cons, List.sum_cons] at hl
    intro d hd
    rcases List.mem_cons.mp hd with rfl | hd'
    · intro hEq
      subst hEq
      omega
    · exact ih (by simp only [widthL]; omega) d hd'

theorem linesOf_no_nl (cur : List Char) (h : ∀ c ∈ cur, c ≠ '\n') :
    linesOf cur = [cur] := by
  have := linesOf_append cur [] h
  simpa [linesOf] using this

theorem mem_of_mem_linesOf :
    ∀ (x line : List Char), line ∈ linesOf x → ∀ c ∈ line, c ∈ x := by
  intro x
  induction x with
  | nil =>
    intro line hline c hc
    simp only [linesOf, List.mem_singleton] at hline
    subst hline
    simp at hc
  | cons a as ih =>
    intro line hline c hc
    by_cases ha : a = '\n'
    · subst ha
      rw [linesOf_nl] at hline
      rcases List.mem_cons.mp hline with rfl | h'
      · simp at hc
      · exact List.mem_cons_of_mem _ (ih line h' c hc)
    · rw [linesOf_cons as ha] at hline
      rcases List.mem_cons.mp hline with rfl | h'
      · rcases List.mem_cons.mp hc with rfl | hc'
        · simp
        · have : c ∈ (linesOf as).headI :=  hc'
          have hmem : (linesOf as).headI ∈ linesOf as := headI_mem_self _ (linesOf_ne_nil as)
          exact List.mem_cons_of_mem _ (ih _ hmem c this)
      · have : line ∈ linesOf as := List.mem_of_mem_tail h'
        exact List.mem_cons_of_mem _ (ih line this c hc)

/-- Greedy-wrap invariant: starting from a partial current line `cur` of
width `lw`, every line of `cur ++` (wrapper output), measured after
discounting its trailing whitespace, either fits in the hard width or is
a single space-free word. -/
theorem wrapText_lines_good (hard : Nat) (cw : Char → Nat) (hsp : 1 ≤ cw ' ') :
    ∀ n (l : List Char), l.length ≤ n → ∀ lw (cur : List Char),
      widthL cw cur = lw → (∀ c ∈ cur, c ≠ '\n') →
      (widthL cw (dropTrailingWs cur) ≤ hard ∨ ∀ c ∈ dropTrailingWs cur, c ≠ ' ') →
      ∀ line ∈ linesOf (cur ++ (wrapText hard cw lw l).1),
        widthL cw (dropTrailingWs line) ≤ hard ∨
          ∀ c ∈ dropTrailingWs line, c ≠ ' ' := by
  intro n
  induction n with
  | zero =>
    intro l hl lw cur hw hnl hgood line hline
    have : l = [] := List.length_eq_zero.mp (Nat.le_zero.mp hl)
    subst this
    rw [wrapText_nil, List.append_nil, linesOf_no_nl cur hnl] at hline
    rcases List.mem_singleton.mp hline with rfl
    exact hgood
  | succ n ih =>
    intro l hl lw cur hw hnl hgood line hline
    cases l with
    | nil =>
      rw [wrapText_nil, List.append_nil, linesOf_no_nl cur hnl] at hline
      rcases List.mem_singleton.mp hline with rfl
      exact hgood
    | cons c cs =>
      by_cases hcnl : c = '\n'
      · subst hcnl
        rw [wrapText_nl] at hline
        rw [show ('\n' :: (wrapText hard cw 0 cs).1,
            (wrapText hard cw 0 cs).2).1 =
          '\n' :: (wrapText hard cw 0 cs).1 from rfl] at hline
        rw [linesOf_append cur _ hnl, linesOf_nl] at hline
        simp only [List.headI_cons, List.tail_cons, List.append_nil] at hline
        rcases List.mem_cons.mp hline with rfl | hline'
        · exact hgood
        · have hlen : cs.length ≤ n := by
            simp only [List.length_cons] at hl; omega
          exact ih cs hlen 0 [] rfl (by simp) (by simp [dropTrailingWs])
            line (by simpa using hline')
      · by_cases hcsp : c = ' '
        · rw [wrapText_space hard cw lw cs hcsp] at hline
          rw [show ((grabSpaces (c :: cs)).1 ++
              (wrapText hard cw (lw + widthL cw (grabSpaces (c :: cs)).1)
                (grabSpaces (c :: cs)).2).1,
              (wrapText hard cw (lw + widthL cw (grabSpaces (c :: cs)).1)
                (grabSpaces (c :: cs)).2).2).1 =
            (grabSpaces (c :: cs)).1 ++
              (wrapText hard cw (lw + widthL cw (grabSpaces (c :: cs)).1)
                (grabSpaces (c :: cs)).2).1 from rfl] at hline
          rw [← List.append_assoc] at hline
          have hlen : (grabSpaces (c :: cs)).2.length ≤ n := by
            have := grabSpaces_snd_lt c cs hcsp
            simp only [List.length_cons] at this hl
            omega
          refine ih _ hlen _ (cur ++ (grabSpaces (c :: cs)).1) ?_ ?_ ?_ line hline
          · rw [widthL_append, hw]
          · intro d hd
            rcases List.mem_append.mp hd with hd' | hd'
            · exact hnl d hd'
            · rw [grabSpaces_mem _ d hd']
              decide
          · rw [dropTrailingWs_append_ws cur _ (fun d hd => by
              rw [grabSpaces_mem _ d hd]; decide)]
            exact hgood
        · have hc : c ≠ ' ' ∧ c ≠ '\n' := ⟨hcsp, hcnl⟩
          have hwdmem := grabWord_mem (c :: cs)
          have hlen : (grabWord (c :: cs)).2.length ≤ n := by
            have := grabWord_snd_lt c cs hc
            simp only [List.length_cons] at this hl
            omega
          by_cases hbrk : 0 < lw ∧ hard < lw + widthL cw (grabWord (c :: cs)).1
          · rw [wrapText_word_brk hard cw lw cs hc hbrk] at hline
            rw [show ('\n' :: ((grabWord (c :: cs)).1 ++
                (wrapText hard cw (widthL cw (grabWord (c :: cs)).1)
                  (grabWord (c :: cs)).2).1),
                (wrapText hard cw (widthL cw (grabWord (c :: cs)).1)
                  (grabWord (c :: cs)).2).2).1 =
              '\n' :: ((grabWord (c :: cs)).1 ++
                (wrapText hard cw (widthL cw (grabWord (c :: cs)).1)
                  (grabWord (c :: cs)).2).1) from rfl] at hline
            rw [linesOf_append cur _ hnl, linesOf_nl] at hline
            simp only [List.headI_cons, List.tail_cons, List.append_nil] at hline
            rcases List.mem_cons.mp hline with rfl | hline'
            · exact hgood
            · refine ih _ hlen _ ((grabWord (c :: cs)).1) rfl ?_ ?_ line hline'
              · exact fun d hd => (hwdmem d hd).2
              · right
                intro d hd
                exact (hwdmem d (dropTrailingWs_subset _ d hd)).1
          · rw [wrapText_word_no hard cw lw cs hc hbrk] at hline
            rw [show ((grabWord (c :: cs)).1 ++
                (wrapText hard cw (lw + widthL cw (grabWord (c :: cs)).1)
                  (grabWord (c :: cs)).2).1,
                (wrapText hard cw (lw + widthL cw (grabWord (c :: cs)).1)
                  (grabWord (c :: cs)).2).2).1 =
              (grabWord (c :: cs)).1 ++
                (wrapText hard cw (lw + widthL cw (grabWord (c :: cs)).1)
                  (grabWord (c :: cs)).2).1 from rfl] at hline
            rw [← List.append_assoc] at hline
            refine ih _ hlen _ (cur ++ (grabWord (c :: cs)).1) ?_ ?_ ?_ line hline
            · rw [widthL_append, hw]
            · intro d hd
              rcases List.mem_append.mp hd with hd' | hd'
              · exact hnl d hd'
              · exact (hwdmem d hd').2
            · rcases Decidable.not_and_iff_or_not.mp hbrk with hlw | hle
              · right
                have hlw0 : lw = 0 := by omega
                have hcur0 : widthL cw cur = 0 := by rw [hw, hlw0]
                have hcursf := widthL_zero_no_space cw hsp cur hcur0
                intro d hd
                rcases List.mem_append.mp (dropTrailingWs_subset _ d hd) with hd' | hd'
                · exact hcursf d hd'
                · exact (hwdmem d hd').1
              · left
                calc widthL cw (dropTrailingWs (cur ++ (grabWord (c :: cs)).1))
                    ≤ widthL cw (cur ++ (grabWord (c :: cs)).1) :=
                      widthL_dropTrailingWs_le cw _
                  _ = lw + widthL cw (grabWord (c :: cs)).1 := by
                      rw [widthL_append, hw]
                  _ ≤ hard := by omega

theorem getElem?_zero_of_ne_nil (l : List (List Char)) (h : l ≠ []) :
    l[0]? = some l.headI := by
  cases l with
  | nil => exact absurd rfl h
  | cons a as => simp [List.headI]

theorem getElem?_tail_get (l : List (List Char)) (j : Nat) :
    l.tail[j]? = l[j + 1]? := by
  cases l with
  | nil => rfl
  | cons a as => simp

theorem dropTrailingWs_cons (c : Char) (cs : List Char) :
    dropTrailingWs (c :: cs) =
      if dropTrailingWs cs = [] ∧ isWs c then [] else c :: dropTrailingWs cs := rfl

/-- Trimming the raw trailing whitespace relates the segments position by
position: each segment of the trimmed text trims to the same core as the
corresponding segment of the untrimmed text. -/
theorem linesOf_dropTrailingWs_get :
    ∀ (x : List Char) (i : Nat) (line : List Char),
      (linesOf (dropTrailingWs x))[i]? = some line →
      ∃ lineO, (linesOf x)[i]? = some lineO ∧
        dropTrailingWs line = dropTrailingWs lineO := by
  intro x
  induction x with
  | nil =>
    intro i line h
    exact ⟨line, h, rfl⟩
  | cons c cs ih =>
    intro i line h
    rw [dropTrailingWs_cons] at h
    by_cases hA : dropTrailingWs cs = [] ∧ isWs c = true
    · rw [if_pos hA] at h
      have hx : ∀ d ∈ c :: cs, isWs d = true := by
        intro d hd
        rcases List.mem_cons.mp hd with rfl | hd'
        · exact hA.2
        · exact (dropTrailingWs_nil_iff cs).mp hA.1 d hd'
      cases i with
      | zero =>
        simp only [linesOf, List.getElem?_cons_zero, Option.some.injEq] at h
        subst h
        refine ⟨(linesOf (c :: cs)).headI,
          getElem?_zero_of_ne_nil _ (linesOf_ne_nil _), ?_⟩
        rw [show dropTrailingWs [] = [] from rfl]
        have hmem := headI_mem_self _ (linesOf_ne_nil (c :: cs))
        have : ∀ d ∈ (linesOf (c :: cs)).headI, isWs d = true :=
          fun d hd => hx d (mem_of_mem_linesOf _ _ hmem d hd)
        exact ((dropTrailingWs_nil_iff _).mpr this).symm
      | succ j =>
        simp only [linesOf, List.getElem?_cons_succ] at h
        simp at h
    · rw [if_neg hA] at h
      by_cases hc : c = '\n'
      · subst hc
        rw [linesOf_nl] at h
        rw [linesOf_nl]
        cases i with
        | zero =>
          simp only [List.getElem?_cons_zero, Option.some.injEq] at h
          subst h
          exact ⟨[], by simp, rfl⟩
        | succ j =>
          rw [List.getElem?_cons_succ] at h
          obtain ⟨lineO, h1, h2⟩ := ih j line h
          exact ⟨lineO, by rw [List.getElem?_cons_succ]; exact h1, h2⟩
      · rw [linesOf_cons _ hc] at h
        rw [linesOf_cons _ hc]
        cases i with
        | zero =>
          simp only [List.getElem?_cons_zero, Option.some.injEq] at h
          subst h
          obtain ⟨lineO, h1, h2⟩ := ih 0 (linesOf (dropTrailingWs cs)).headI
            (getElem?_zero_of_ne_nil _ (linesOf_ne_nil _))
          rw [getElem?_zero_of_ne_nil _ (linesOf_ne_nil cs)] at h1
          have h1' : lineO = (linesOf cs).headI := by
            injection h1 with h1'
            exact h1'.symm
          subst h1'
          refine ⟨c :: (linesOf cs).headI, by simp, ?_⟩
          rw [dropTrailingWs_cons, dropTrailingWs_cons, h2]
        | succ j =>
          rw [List.getElem?_cons_succ, getElem?_tail_get] at h
          obtain ⟨lineO, h1, h2⟩ := ih (j + 1) line h
          refine ⟨lineO, ?_, h2⟩
          rw [List.getElem?_cons_succ, getElem?_tail_get]
          exact h1

theorem linesOf_dropTrailingWs_mem (x line : List Char)
    (h : line ∈ linesOf (dropTrailingWs x)) :
    ∃ lineO ∈ linesOf x, dropTrailingWs line = dropTrailingWs lineO := by
  obtain ⟨i, hi⟩ := List.mem_iff_getElem?.mp h
  obtain ⟨lineO, h1, h2⟩ := linesOf_dropTrailingWs_get x i line hi
  exact ⟨lineO, List.mem_iff_getElem?.mpr ⟨i, h1⟩, h2⟩

/-- On a single visible run, `wrap` is the wrapper followed by the
trailing trim. -/
theorem wrap_single_vis (hard : Nat) (cw : Char → Nat) (s : List Char) :
    StyledStr.wrap hard cw [Run.vis s] =
      [Run.vis (dropTrailingWs (wrapText hard cw 0 s).1)] := by
  show trimEndRuns (wrapRunsCore hard cw 0 [Run.vis s]).1 = _
  simp only [wrapRunsCore]
  show trimEndRuns [Run.vis (wrapText hard cw 0 s).1] = _
  rw [trimEndRuns]
  simp only [List.reverse_cons, List.reverse_nil, List.nil_append, trimEndRunsRev,
    trimRunEnd]
  split <;> simp

/-- Claim C2, counterexample: for the plain text `"a \nb"` at width 1
(all characters one column wide), the first emitted line is `"a "` with
display width 2 > 1, yet its single word `"a"` has width 1, so the
claimed exception does not apply: some emitted line exceeds the hard
width without being an overlong single word. -/
theorem wrap_line_width_claim_refuted :
    ¬ (∀ line ∈ linesOf (rawOf (StyledStr.wrap 1 cwOne [Run.vis ("a \nb".toList)])),
        widthL cwOne line ≤ 1 ∨ exceptionHolds cwOne 1 line = true) := by
  decide

/-- Claim C2, amended: for plain (style-free) text `s` and hard width
`w ≥ 1` (the external width function giving the ASCII space a positive
width), every emitted line of `wrap(s, w)`, measured after discounting
its trailing whitespace, has display width at most `w`, except a line
whose remaining content is a single space-free word wider than `w`,
emitted unbroken; and a break is never inserted inside a word: before
the final trailing trim the output's word sequence equals the input's. -/
theorem wrap_line_width_amended (cw : Char → Nat) (w : Nat) (s : List Char)
    (hsp : 1 ≤ cw ' ') (hw : 1 ≤ w) :
    (∀ line ∈ linesOf (rawOf (StyledStr.wrap w cw [Run.vis s])),
      widthL cw (dropTrailingWs line) ≤ w ∨
        (w < widthL cw (dropTrailingWs line) ∧ dropTrailingWs line ≠ [] ∧
         ∀ c ∈ dropTrailingWs line, c ≠ ' ')) ∧
    wordsOf (wrapText w cw 0 s).1 = wordsOf s := by
  constructor
  · intro line hline
    rw [wrap_single_vis] at hline
    have hraw : rawOf [Run.vis (dropTrailingWs (wrapText w cw 0 s).1)] =
        dropTrailingWs (wrapText w cw 0 s).1 := by
      simp [rawOf, Run.chars]
    rw [hraw] at hline
    obtain ⟨lineO, hmem, heq⟩ := linesOf_dropTrailingWs_mem _ line hline
    have hgood := wrapText_lines_good w cw hsp s.length s (le_refl _) 0 []
      rfl (by simp) (by simp [dropTrailingWs, widthL]) lineO (by simpa using hmem)
    by_cases hle : widthL cw (dropTrailingWs line) ≤ w
    · left
      exact hle
    · right
      refine ⟨by omega, ?_, ?_⟩
      · intro hnil
        rw [hnil] at hle
        simp [widthL] at hle
      · rcases hgood with hg | hg
        · rw [heq] at hle
          exact absurd hg hle
        · rw [heq]
          exact hg
  · exact wrapText_wordsOf w cw s.length s (le_refl _) 0

/-- Witness for the amended C2 at a concrete plain text and width. -/
theorem wrap_line_width_amended_witness :
    (1 ≤ cwOne ' ') ∧ (1 ≤ (3 : Nat)) ∧
    ((∀ line ∈ linesOf (rawOf (StyledStr.wrap 3 cwOne
        [Run.vis ("hello world".toList)])),
      widthL cwOne (dropTrailingWs line) ≤ 3 ∨
        (3 < widthL cwOne (dropTrailingWs line) ∧ dropTrailingWs line ≠ [] ∧
         ∀ c ∈ dropTrailingWs line, c ≠ ' ')) ∧
    wordsOf (wrapText 3 cwOne 0 ("hello world".toList)).1 =
      wordsOf ("hello world".toList)) :=
  ⟨by decide, by decide,
    wrap_line_width_amended cwOne 3 ("hello world".toList) (by decide) (by decide)⟩

theorem head?_append_ne_nil (m w : List Char) (hm : m ≠ []) :
    (m ++ w).head? = m.head? := by
  cases m with
  | nil => exact absurd rfl hm
  | cons c cs => simp

/-- A space block followed by a non-space suffix is grabbed exactly. -/
theorem grabSpaces_block (sp z : List Char) (hsp : ∀ c ∈ sp, c = ' ')
    (hz : z.head? ≠ some ' ') : grabSpaces (sp ++ z) = (sp, z) := by
  rw [grabSpaces_append _ _ hz, grabSpaces_all _ hsp]
  simp

/-- A word block followed by a separator (or nothing) is grabbed exactly. -/
theorem grabWord_block (wd z : List Char) (hwd : ∀ c ∈ wd, c ≠ ' ' ∧ c ≠ '\n')
    (hz : z.head? = none ∨ z.head? = some ' ' ∨ z.head? = some '\n') :
    grabWord (wd ++ z) = (wd, z) := by
  rcases hz with h | h
  · have : z = [] := by cases z <;> simp_all
    subst this
    rw [List.append_nil]
    exact grabWord_all _ hwd
  · rw [grabWord_append _ _ h, grabWord_all _ hwd]
    simp

/-- Unfolding the wrapper over a leading space block: the block is
emitted verbatim and its width is added to the line width. -/
theorem wrapText_sp_block (hard : Nat) (cw : Char → Nat) (lw : Nat)
    (sp z : List Char) (hsp : ∀ c ∈ sp, c = ' ') (hne : sp ≠ [])
    (hz : z.head? ≠ some ' ') :
    wrapText hard cw lw (sp ++ z) =
      (sp ++ (wrapText hard cw (lw + widthL cw sp) z).1,
       (wrapText hard cw (lw + widthL cw sp) z).2) := by
  cases sp with
  | nil => exact absurd rfl hne
  | cons c sp =>
    have hc : c = ' ' := hsp c (by simp)
    have hg : grabSpaces (c :: (sp ++ z)) = (c :: sp, z) := by
      rw [← List.cons_append]
      exact grabSpaces_block _ _ hsp hz
    rw [List.cons_append, wrapText_space hard cw lw _ hc, hg]

/-- Unfolding the wrapper over a leading word block: the word is emitted
verbatim, preceded by an inserted break exactly when the line is
non-empty and the word overflows the hard width. -/
theorem wrapText_word_block (hard : Nat) (cw : Char → Nat) (lw : Nat)
    (wd z : List Char) (hwd : ∀ c ∈ wd, c ≠ ' ' ∧ c ≠ '\n') (hne : wd ≠ [])
    (hz : z.head? = none ∨ z.head? = some ' ' ∨ z.head? = some '\n') :
    wrapText hard cw lw (wd ++ z) =
      if 0 < lw ∧ hard < lw + widthL cw wd then
        ('\n' :: (wd ++ (wrapText hard cw (widthL cw wd) z).1),
         (wrapText hard cw (widthL cw wd) z).2)
      else
        (wd ++ (wrapText hard cw (lw + widthL cw wd) z).1,
         (wrapText hard cw (lw + widthL cw wd) z).2) := by
  cases wd with
  | nil => exact absurd rfl hne
  | cons c wd =>
    have hc : c ≠ ' ' ∧ c ≠ '\n' := hwd c (by simp)
    have hg : grabWord (c :: (wd ++ z)) = (c :: wd, z) := by
      rw [← List.cons_append]
      exact grabWord_block _ _ hwd hz
    by_cases hcond : 0 < lw ∧ hard < lw + widthL cw (c :: wd)
    · rw [if_pos hcond, List.cons_append,
        wrapText_word_brk hard cw lw _ hc (by rw [hg]; exact hcond), hg]
    · rw [if_neg hcond, List.cons_append,
        wrapText_word_no hard cw lw _ hc (by rw [hg]; exact hcond), hg]

/-- Replay: re-wrapping the wrapper's own output (at the same starting
line width) changes nothing — the emitted text and the final line width
are reproduced exactly. -/
theorem wrapText_replay (hard : Nat) (cw : Char → Nat) :
    ∀ n (l : List Char), l.length ≤ n → ∀ lw,
      wrapText hard cw lw (wrapText hard cw lw l).1 = wrapText hard cw lw l := by
  intro n
  induction n with
  | zero =>
    intro l hl lw
    have : l = [] := List.length_eq_zero.mp (Nat.le_zero.mp hl)
    subst this
    rfl
  | succ n ih =>
    intro l hl lw
    cases l with
    | nil => rfl
    | cons c cs =>
      by_cases hcnl : c = '\n'
      · subst hcnl
        have hIH := ih cs (by simp only [List.length_cons] at hl; omega) 0
        rw [wrapText_nl]
        rw [show ('\n' :: (wrapText hard cw 0 cs).1, (wrapText hard cw 0 cs).2).1 =
          '\n' :: (wrapText hard cw 0 cs).1 from rfl]
        rw [wrapText_nl, hIH]
      · by_cases hcsp : c = ' '
        · have hlen : (grabSpaces (c :: cs)).2.length ≤ n := by
            have := grabSpaces_snd_lt c cs hcsp
            simp only [List.length_cons] at this hl
            omega
          have hIH := ih _ hlen (lw + widthL cw (grabSpaces (c :: cs)).1)
          have hXhead : (wrapText hard cw (lw + widthL cw (grabSpaces (c :: cs)).1)
              (grabSpaces (c :: cs)).2).1.head? ≠ some ' ' :=
            wrapText_head_not_sp hard cw _ _ (grabSpaces_snd_head (c :: cs))
          have hspne : (grabSpaces (c :: cs)).1 ≠ [] := by
            rw [grabSpaces_cons cs hcsp]
            simp
          rw [wrapText_space hard cw lw cs hcsp]
          rw [show ((grabSpaces (c :: cs)).1 ++
              (wrapText hard cw (lw + widthL cw (grabSpaces (c :: cs)).1)
                (grabSpaces (c :: cs)).2).1,
              (wrapText hard cw (lw + widthL cw (grabSpaces (c :: cs)).1)
                (grabSpaces (c :: cs)).2).2).1 =
            (grabSpaces (c :: cs)).1 ++
              (wrapText hard cw (lw + widthL cw (grabSpaces (c :: cs)).1)
                (grabSpaces (c :: cs)).2).1 from rfl]
          rw [wrapText_sp_block hard cw lw _ _ (grabSpaces_mem (c :: cs)) hspne hXhead]
          rw [hIH]
        · have hc : c ≠ ' ' ∧ c ≠ '\n' := ⟨hcsp, hcnl⟩
          have hlen : (grabWord (c :: cs)).2.length ≤ n := by
            have := grabWord_snd_lt c cs hc
            simp only [List.length_cons] at this hl
            omega
          have hwdne : (grabWord (c :: cs)).1 ≠ [] := by
            rw [grabWord_cons cs hc]
            simp
          have hsep := grabWord_snd_head (c :: cs)
          by_cases hbrk : 0 < lw ∧ hard < lw + widthL cw (grabWord (c :: cs)).1
          · have hIH := ih _ hlen (widthL cw (grabWord (c :: cs)).1)
            have hXsep := wrapText_head_sep hard cw
              (widthL cw (grabWord (c :: cs)).1) (grabWord (c :: cs)).2 hsep
            rw [wrapText_word_brk hard cw lw cs hc hbrk]
            rw [show ('\n' :: ((grabWord (c :: cs)).1 ++
                (wrapText hard cw (widthL cw (grabWord (c :: cs)).1)
                  (grabWord (c :: cs)).2).1),
                (wrapText hard cw (widthL cw (grabWord (c :: cs)).1)
                  (grabWord (c :: cs)).2).2).1 =
              '\n' :: ((grabWord (c :: cs)).1 ++
                (wrapText hard cw (widthL cw (grabWord (c :: cs)).1)
                  (grabWord (c :: cs)).2).1) from rfl]
            rw [wrapText_nl]
            rw [wrapText_word_block hard cw 0 _ _ (grabWord_mem (c :: cs)) hwdne hXsep]
            rw [if_neg (by simp), Nat.zero_add, hIH]
          · have hIH := ih _ hlen (lw + widthL cw (grabWord (c :: cs)).1)
            have hXsep := wrapText_head_sep hard cw
              (lw + widthL cw (grabWord (c :: cs)).1) (grabWord (c :: cs)).2 hsep
            rw [wrapText_word_no hard cw lw cs hc hbrk]
            rw [show ((grabWord (c :: cs)).1 ++
                (wrapText hard cw (lw + widthL cw (grabWord (c :: cs)).1)
                  (grabWord (c :: cs)).2).1,
                (wrapText hard cw (lw + widthL cw (grabWord (c :: cs)).1)
                  (grabWord (c :: cs)).2).2).1 =
              (grabWord (c :: cs)).1 ++
                (wrapText hard cw (lw + widthL cw (grabWord (c :: cs)).1)
                  (grabWord (c :: cs)).2).1 from rfl]
            rw [wrapText_word_block hard cw lw _ _ (grabWord_mem (c :: cs)) hwdne hXsep]
            rw [if_neg hbrk, hIH]

/-- Prefix stability: if the wrapper leaves a text unchanged (at some
starting line width), it also leaves every prefix of it unchanged. -/
theorem wrapText_stable_pref (hard : Nat) (cw : Char → Nat) :
    ∀ n (l : List Char), l.length ≤ n → ∀ lw (a w' : List Char), l = a ++ w' →
      (wrapText hard cw lw l).1 = l → (wrapText hard cw lw a).1 = a := by
  intro n
  induction n with
  | zero =>
    intro l hl lw a w' hsplit hstable
    have : l = [] := List.length_eq_zero.mp (Nat.le_zero.mp hl)
    subst this
    have : a = [] := List.append_eq_nil.mp hsplit.symm |>.1
    subst this
    rfl
  | succ n ih =>
    intro l hl lw a w' hsplit hstable
    cases a with
    | nil => rfl
    | cons c a' =>
      subst hsplit
      rw [List.cons_append] at hl hstable
      by_cases hcnl : c = '\n'
      · subst hcnl
        rw [wrapText_nl] at hstable
        rw [show ('\n' :: (wrapText hard cw 0 (a' ++ w')).1,
            (wrapText hard cw 0 (a' ++ w')).2).1 =
          '\n' :: (wrapText hard cw 0 (a' ++ w')).1 from rfl] at hstable
        have hst' : (wrapText hard cw 0 (a' ++ w')).1 = a' ++ w' := by
          injection hstable
        have hIH := ih (a' ++ w') (by simp only [List.length_cons] at hl; omega)
          0 a' w' rfl hst'
        rw [wrapText_nl]
        rw [show ('\n' :: (wrapText hard cw 0 a').1,
            (wrapText hard cw 0 a').2).1 = '\n' :: (wrapText hard cw 0 a').1 from rfl]
        rw [hIH]
      · by_cases hcsp : c = ' '
        · rw [wrapText_space hard cw lw _ hcsp] at hstable
          rw [show ((grabSpaces (c :: (a' ++ w'))).1 ++
              (wrapText hard cw (lw + widthL cw (grabSpaces (c :: (a' ++ w'))).1)
                (grabSpaces (c :: (a' ++ w'))).2).1,
              (wrapText hard cw (lw + widthL cw (grabSpaces (c :: (a' ++ w'))).1)
                (grabSpaces (c :: (a' ++ w'))).2).2).1 =
            (grabSpaces (c :: (a' ++ w'))).1 ++
              (wrapText hard cw (lw + widthL cw (grabSpaces (c :: (a' ++ w'))).1)
                (grabSpaces (c :: (a' ++ w'))).2).1 from rfl] at hstable
          have hdec : (grabSpaces (c :: (a' ++ w'))).1 ++
              (grabSpaces (c :: (a' ++ w'))).2 = c :: (a' ++ w') :=
            grabSpaces_append_eq _
          have hst' : (wrapText hard cw
              (lw + widthL cw (grabSpaces (c :: (a' ++ w'))).1)
              (grabSpaces (c :: (a' ++ w'))).2).1 =
              (grabSpaces (c :: (a' ++ w'))).2 := by
            have := hstable.trans hdec.symm
            exact List.append_cancel_left this
          have hsplit2 : (c :: a') ++ w' =
              (grabSpaces (c :: (a' ++ w'))).1 ++ (grabSpaces (c :: (a' ++ w'))).2 := by
            rw [hdec, List.cons_append]
          rcases List.append_eq_append_iff.mp hsplit2 with ⟨m, hm1, hm2⟩ | ⟨m, hm1, hm2⟩
          · -- the whole prefix lies inside the space block
            have hamem : ∀ d ∈ c :: a', d = ' ' := by
              intro d hd
              exact grabSpaces_mem _ d (by rw [hm1]; exact List.mem_append_left _ hd)
            have := wrapText_sp_block hard cw lw (c :: a') [] hamem (by simp) (by simp)
            rw [List.append_nil] at this
            rw [this]
            simp [wrapText_nil]
          · -- the prefix covers the space block and part of the rest
            have hlen : (grabSpaces (c :: (a' ++ w'))).2.length ≤ n := by
              have := grabSpaces_snd_lt c (a' ++ w') hcsp
              simp only [List.length_cons] at this hl
              omega
            have hIH := ih _ hlen (lw + widthL cw (grabSpaces (c :: (a' ++ w'))).1)
              m w' hm2 hst'
            have hmhead : m.head? ≠ some ' ' := by
              cases m with
              | nil => simp
              | cons d ds =>
                have : (grabSpaces (c :: (a' ++ w'))).2.head? = some d := by
                  rw [hm2]
                  simp
                have h2 := grabSpaces_snd_head (c :: (a' ++ w'))
                rw [this] at h2
                simpa using h2
            rw [hm1, wrapText_sp_block hard cw lw _ _ (grabSpaces_mem _)
              (by rw [grabSpaces_cons _ hcsp]; simp) hmhead, hIH]
        · have hc : c ≠ ' ' ∧ c ≠ '\n' := ⟨hcsp, hcnl⟩
          by_cases hbrk : 0 < lw ∧ hard < lw + widthL cw (grabWord (c :: (a' ++ w'))).1
          · rw [wrapText_word_brk hard cw lw _ hc hbrk] at hstable
            rw [show ('\n' :: ((grabWord (c :: (a' ++ w'))).1 ++
                (wrapText hard cw (widthL cw (grabWord (c :: (a' ++ w'))).1)
                  (grabWord (c :: (a' ++ w'))).2).1),
                (wrapText hard cw (widthL cw (grabWord (c :: (a' ++ w'))).1)
                  (grabWord (c :: (a' ++ w'))).2).2).1 =
              '\n' :: ((grabWord (c :: (a' ++ w'))).1 ++
                (wrapText hard cw (widthL cw (grabWord (c :: (a' ++ w'))).1)
                  (grabWord (c :: (a' ++ w'))).2).1) from rfl] at hstable
            have : '\n' = c := by injection hstable
            exact absurd this.symm hcnl
          · rw [wrapText_word_no hard cw lw _ hc hbrk] at hstable
            rw [show ((grabWord (c :: (a' ++ w'))).1 ++
                (wrapText hard cw (lw + widthL cw (grabWord (c :: (a' ++ w'))).1)
                  (grabWord (c :: (a' ++ w'))).2).1,
                (wrapText hard cw (lw + widthL cw (grabWord (c :: (a' ++ w'))).1)
                  (grabWord (c :: (a' ++ w'))).2).2).1 =
              (grabWord (c :: (a' ++ w'))).1 ++
                (wrapText hard cw (lw + widthL cw (grabWord (c :: (a' ++ w'))).1)
                  (grabWord (c :: (a' ++ w'))).2).1 from rfl] at hstable
            have hdec : (grabWord (c :: (a' ++ w'))).1 ++
                (grabWord (c :: (a' ++ w'))).2 = c :: (a' ++ w') :=
              grabWord_append_eq _
            have hst' : (wrapText hard cw
                (lw + widthL cw (grabWord (c :: (a' ++ w'))).1)
                (grabWord (c :: (a' ++ w'))).2).1 =
                (grabWord (c :: (a' ++ w'))).2 := by
              have := hstable.trans hdec.symm
              exact List.append_cancel_left this
            have hsplit2 : (c :: a') ++ w' =
                (grabWord (c :: (a' ++ w'))).1 ++ (grabWord (c :: (a' ++ w'))).2 := by
              rw [hdec, List.cons_append]
            rcases List.append_eq_append_iff.mp hsplit2 with ⟨m, hm1, hm2⟩ | ⟨m, hm1, hm2⟩
            · -- the whole prefix lies inside the word block
              have hamem : ∀ d ∈ c :: a', d ≠ ' ' ∧ d ≠ '\n' := by
                intro d hd
                exact grabWord_mem _ d (by rw [hm1]; exact List.mem_append_left _ hd)
              have hble := wrapText_word_block hard cw lw (c :: a') [] hamem
                (by simp) (Or.inl rfl)
              have hwa : widthL cw (grabWord (c :: (a' ++ w'))).1 =
                  widthL cw (c :: a') + widthL cw m := by
                rw [hm1, widthL_append]
              have hnocond : ¬(0 < lw ∧ hard < lw + widthL cw (c :: a')) := by
                intro hcond
                exact hbrk ⟨hcond.1, by rw [hwa]; omega⟩
              rw [List.append_nil] at hble
              rw [hble, if_neg hnocond]
              simp [wrapText_nil]
            · -- the prefix covers the word block and part of the rest
              have hlen : (grabWord (c :: (a' ++ w'))).2.length ≤ n := by
                have := grabWord_snd_lt c (a' ++ w') hc
                simp only [List.length_cons] at this hl
                omega
              have hIH := ih _ hlen (lw + widthL cw (grabWord (c :: (a' ++ w'))).1)
                m w' hm2 hst'
              have hmhead : m.head? = none ∨ m.head? = some ' ' ∨ m.head? = some '\n' := by
                cases m with
                | nil => simp
                | cons d ds =>
                  have hdm : (grabWord (c :: (a' ++ w'))).2.head? = some d := by
                    rw [hm2]
                    simp
                  have h2 := grabWord_snd_head (c :: (a' ++ w'))
                  rw [hdm] at h2
                  exact h2
              rw [hm1, wrapText_word_block hard cw lw _ _ (grabWord_mem _)
                (by rw [grabWord_cons _ hc]; simp) hmhead]
              rw [if_neg hbrk, hIH]

theorem wrapText_stable_dtw (hard : Nat) (cw : Char → Nat) (lw : Nat)
    (l : List Char) (h : (wrapText hard cw lw l).1 = l) :
    (wrapText hard cw lw (dropTrailingWs l)).1 = dropTrailingWs l := by
  obtain ⟨s, hs, _⟩ := dropTrailingWs_sfx l
  exact wrapText_stable_pref hard cw l.length l (le_refl _) lw (dropTrailingWs l) s hs h

theorem dropTrailingWs_idem (l : List Char) :
    dropTrailingWs (dropTrailingWs l) = dropTrailingWs l := by
  induction l with
  | nil => rfl
  | cons c cs ih =>
    rw [dropTrailingWs_cons]
    split
    · rfl
    · next h =>
      rw [dropTrailingWs_cons, ih]
      rw [if_neg h]

theorem trimRunEnd_chars (r : Run) :
    (trimRunEnd r).chars = dropTrailingWs r.chars := by
  cases r <;> rfl

theorem trimRunEnd_idem (r : Run) : trimRunEnd (trimRunEnd r) = trimRunEnd r := by
  cases r <;> simp [trimRunEnd, dropTrailingWs_idem]

theorem trimEndRunsRev_idem (x : List Run) :
    trimEndRunsRev (trimEndRunsRev x) = trimEndRunsRev x := by
  induction x with
  | nil => rfl
  | cons r rest ih =>
    rw [trimEndRunsRev]
    split
    · next h =>
      rw [trimEndRunsRev, trimRunEnd_idem, if_pos h, ih]
    · next h =>
      rw [trimEndRunsRev, trimRunEnd_idem, if_neg h]

theorem trimEndRuns_idem (rs : List Run) :
    trimEndRuns (trimEndRuns rs) = trimEndRuns rs := by
  rw [trimEndRuns, trimEndRuns, List.reverse_reverse, trimEndRunsRev_idem]

theorem trimEndRunsRev_append_stop (x : List Run) (r : Run)
    (hx : ¬ ∀ r' ∈ x, ∀ c ∈ r'.chars, isWs c = true) :
    trimEndRunsRev (x ++ [r]) = trimEndRunsRev x ++ [r] := by
  induction x with
  | nil => simp at hx
  | cons a x' ih =>
    rw [List.cons_append, trimEndRunsRev, trimEndRunsRev]
    split
    · next h =>
      have ha : ∀ c ∈ a.chars, isWs c = true := by
        rw [trimRunEnd_chars] at h
        exact (dropTrailingWs_nil_iff _).mp h
      have hx' : ¬ ∀ r' ∈ x', ∀ c ∈ r'.chars, isWs c = true := by
        intro h'
        exact hx fun r' hr' => by
          rcases List.mem_cons.mp hr' with rfl | hr''
          · exact ha
          · exact h' r' hr''
      rw [ih hx']
      simp
    · simp

theorem trimEndRunsRev_append_ws (x : List Run) (r : Run)
    (hx : ∀ r' ∈ x, ∀ c ∈ r'.chars, isWs c = true) :
    trimEndRunsRev (x ++ [r]) = x.map trimRunEnd ++ [trimRunEnd r] := by
  induction x with
  | nil =>
    rw [List.nil_append, trimEndRunsRev, trimEndRunsRev]
    split <;> simp
  | cons a x' ih =>
    rw [List.cons_append, trimEndRunsRev]
    have ha : (trimRunEnd a).chars = [] := by
      rw [trimRunEnd_chars]
      exact (dropTrailingWs_nil_iff _).mpr (hx a (by simp))
    rw [if_pos ha, ih fun r' hr' => hx r' (by simp [hr'])]
    simp

/-- Splitting the trailing trim at the head run: if some later run has a
non-whitespace character the head run is untouched; otherwise every later
run is trimmed to nothing and the head run is end-trimmed. -/
theorem trimEndRuns_cons_stop (r : Run) (rest : List Run)
    (h : ¬ ∀ r' ∈ rest, ∀ c ∈ r'.chars, isWs c = true) :
    trimEndRuns (r :: rest) = r :: trimEndRuns rest := by
  rw [trimEndRuns, trimEndRuns, List.reverse_cons, trimEndRunsRev_append_stop _ _ (by
    intro h'
    exact h fun r' hr' => h' r' (List.mem_reverse.mpr hr'))]
  simp

theorem trimEndRuns_cons_ws (r : Run) (rest : List Run)
    (h : ∀ r' ∈ rest, ∀ c ∈ r'.chars, isWs c = true) :
    trimEndRuns (r :: rest) = trimRunEnd r :: rest.map trimRunEnd := by
  rw [trimEndRuns, List.reverse_cons, trimEndRunsRev_append_ws _ _ (by
    intro r' hr'
    exact h r' (List.mem_reverse.mp hr'))]
  simp [List.map_reverse]

/-- Runs with no characters are passed through unchanged by the wrap
pass, whatever the line-width state. -/
theorem wrapRunsCore_empty_runs (hard : Nat) (cw : Char → Nat) :
    ∀ (rs : List Run) (lw : Nat), (∀ r ∈ rs, r.chars = []) →
      (wrapRunsCore hard cw lw rs).1 = rs := by
  intro rs
  induction rs with
  | nil => intro lw _; rfl
  | cons r rest ih =>
    intro lw h
    cases r with
    | sty s =>
      simp only [wrapRunsCore]
      rw [ih lw fun r' hr' => h r' (by simp [hr'])]
    | vis s =>
      have hs : s = [] := h (Run.vis s) (by simp)
      subst hs
      simp only [wrapRunsCore, wrapText_nil]
      rw [ih lw fun r' hr' => h r' (by simp [hr'])]

/-- Replay at the level of runs: re-wrapping the wrap pass's own output
(at the same starting line width) reproduces it, state included. -/
theorem wrapRunsCore_replay (hard : Nat) (cw : Char → Nat) :
    ∀ (rs : List Run) (lw : Nat),
      wrapRunsCore hard cw lw (wrapRunsCore hard cw lw rs).1 =
        wrapRunsCore hard cw lw rs := by
  intro rs
  induction rs with
  | nil => intro lw; rfl
  | cons r rest ih =>
    intro lw
    cases r with
    | sty s =>
      simp only [wrapRunsCore]
      rw [ih lw]
    | vis s =>
      simp only [wrapRunsCore]
      rw [wrapText_replay hard cw s.length s (le_refl _) lw, ih]

/-- Stability is preserved by the trailing trim: if the wrap pass leaves
a run list unchanged, it also leaves its end-trimmed version unchanged. -/
theorem wrapRunsCore_stable_trim (hard : Nat) (cw : Char → Nat) :
    ∀ (rs : List Run) (lw : Nat),
      (wrapRunsCore hard cw lw rs).1 = rs →
      (wrapRunsCore hard cw lw (trimEndRuns rs)).1 = trimEndRuns rs := by
  intro rs
  induction rs with
  | nil => intro lw _; rfl
  | cons r rest ih =>
    intro lw hst
    by_cases hws : ∀ r' ∈ rest, ∀ c ∈ r'.chars, isWs c = true
    · rw [trimEndRuns_cons_ws r rest hws]
      have hmap : ∀ r' ∈ rest.map trimRunEnd, r'.chars = [] := by
        intro r' hr'
        obtain ⟨r0, hr0, rfl⟩ := List.mem_map.mp hr'
        rw [trimRunEnd_chars]
        exact (dropTrailingWs_nil_iff _).mpr (hws r0 hr0)
      cases r with
      | sty s =>
        simp only [trimRunEnd, wrapRunsCore]
        rw [wrapRunsCore_empty_runs hard cw _ _ hmap]
      | vis s =>
        simp only [wrapRunsCore] at hst
        injection hst with hh ht
        injection hh with h1
        simp only [trimRunEnd, wrapRunsCore]
        rw [wrapText_stable_dtw hard cw lw s h1]
        rw [wrapRunsCore_empty_runs hard cw _ _ hmap]
    · rw [trimEndRuns_cons_stop r rest hws]
      cases r with
      | sty s =>
        simp only [wrapRunsCore] at hst ⊢
        injection hst with hh ht
        rw [ih lw ht]
      | vis s =>
        simp only [wrapRunsCore] at hst ⊢
        injection hst with hh ht
        injection hh with h1
        rw [h1, ih _ ht]

/-- Claim C3: `wrap` is idempotent — wrapping an already-wrapped buffer
at the same hard width leaves it unchanged, for every buffer (styled or
not) and every width function. -/
theorem wrap_idempotent (hard : Nat) (cw : Char → Nat) (b : List Run) :
    StyledStr.wrap hard cw (StyledStr.wrap hard cw b) = StyledStr.wrap hard cw b := by
  rw [StyledStr.wrap, StyledStr.wrap]
  have h1 : (wrapRunsCore hard cw 0 (wrapRunsCore hard cw 0 b).1).1 =
      (wrapRunsCore hard cw 0 b).1 :=
    congrArg Prod.fst (wrapRunsCore_replay hard cw b 0)
  rw [wrapRunsCore_stable_trim hard cw _ 0 h1, trimEndRuns_idem]
